import Mathlib

/-!
# lz4c `Uncompress` handler: orchestration model

Shallow embedding of `cmd/lz4c/uncompress.go`.  The handler is a sequential
program over external operations (the `os`, `io`, `fmt`, `time`, `runtime`
packages, the progress bar and the lz4 stream decoder).  Every external call is
recorded, with its arguments and its outcome, in a chronological trace; the
outcome of a call is supplied by an environment that may look at the whole
history.  The handler itself is translated statement by statement.
-/

namespace Lz4c

/-! ## The external world -/

/-- A Go `error` value. -/
abbrev Error := String

/-- An open `*os.File`: `id` is the length of the trace when it was opened
(so two handles never share an id), `name` the path it was opened with. -/
structure File where
  id : Nat
  name : String
deriving DecidableEq, Repr

/-- What `os.FileInfo` the handler looks at: `Mode()` and `Size()`. -/
structure FileInfo where
  mode : Nat
  size : Int
deriving DecidableEq, Repr

/-- The `os.O_*` flags; an `os.OpenFile` flag argument is the list of the
flags or-ed together. -/
inductive OpenFlag
  | O_RDONLY | O_WRONLY | O_RDWR | O_APPEND | O_CREATE | O_EXCL | O_SYNC | O_TRUNC
deriving DecidableEq, Repr

/-- The `io.Reader` a decoder session is bound to by `Reset`. -/
inductive Source
  | null
  | stdin
  | file (f : File)
  | bytes (buf : List UInt8)
deriving DecidableEq, Repr

/-- A progress bar as built by `progressbar.NewOptions64` with the three
options the handler passes. -/
structure Bar where
  max : Int
  renderBlankState : Bool
  description : String
  clearOnFinish : Bool
deriving DecidableEq, Repr

/-- The `io.Writer` values the handler builds. -/
inductive Writer
  | stdout
  | discard
  | file (f : File)
  | bar (b : Bar)
  | multi (a b : Writer)
deriving DecidableEq, Repr

/-- A `float64` expression, kept unevaluated. -/
inductive F64
  | ofInt (i : Int)
  | mul (a b : F64)
  | div (a b : F64)
deriving DecidableEq, Repr

/-- An argument handed to `fmt.Print`, `fmt.Printf` or `fmt.Println`. -/
inductive Val
  | str (s : String)
  | int (i : Int)
  | f64 (x : F64)
  | durRound (d m : Int)
deriving DecidableEq, Repr

/-- One external call, with its arguments and its outcome. -/
inductive Event
  | NewReader
  | Reset (src : Source)
  | Open (name : String) (f : File) (err : Option Error)
  | ReadAll (f : File) (data : List UInt8) (err : Option Error)
  | Close (f : File) (err : Option Error)
  | Stat (f : File) (info : FileInfo) (err : Option Error)
  | OpenFile (name : String) (flag : List OpenFlag) (perm : Nat) (f : File) (err : Option Error)
  | NewBar (b : Bar)
  | Apply (owner : Nat)
  | BlockDone (owner : Nat) (n : Nat)
  | Write (w : Writer) (p : List UInt8) (err : Option Error)
  | Copied (dst : Writer) (n : Int) (err : Option Error)
  | BarClear (b : Bar)
  | GC
  | Now (t : Int)
  | Print (args : List Val)
  | Printf (format : String) (args : List Val)
  | Println (args : List Val)
deriving DecidableEq, Repr

/-- The outcome of every external call, as a function of the history of calls
made so far.  `decode h src` is what a decoder session bound to `src` yields
when drained: the decoded blocks in order (finitely many) and the error, if
any, that ends the stream after them.  An outcome `none` is a `nil` error. -/
structure Env where
  osOpen : List Event → String → Option Error
  readAll : List Event → File → List UInt8 × Option Error
  close : List Event → File → Option Error
  stat : List Event → File → FileInfo × Option Error
  openFile : List Event → String → List OpenFlag → Nat → Option Error
  decode : List Event → Source → List (List UInt8) × Option Error
  write : List Event → Writer → List UInt8 → Option Error
  now : List Event → Int

/-- The decoder session `zr`: the source it is bound to and the loop iteration
whose `size` variable the registered block observer increments, if any. -/
structure Reader where
  src : Source
  handler : Option Nat

/-- State of one handler invocation: the trace of external calls, the decoder
session, and the `size` variable of each loop iteration. -/
structure World where
  trace : List Event
  zr : Reader
  size : Nat → Int

/-- The state a handler invocation starts from. -/
def World.init : World := ⟨[], ⟨Source.null, none⟩, fun _ => 0⟩

/-- Record one external call. -/
def World.log (w : World) (e : Event) : World := { w with trace := w.trace ++ [e] }

/-! ## Library operations -/

/-- The constant `time.Millisecond`, in nanoseconds. -/
def Millisecond : Int := 1000000

/-- The constant `time.Second`, in nanoseconds. -/
def Second : Int := 1000000000

/-- Go's `strings.HasSuffix`: is `suffix` the tail of `s`?  A Go string is a
sequence of bytes and is sliced by byte index; here a string is a sequence of
code points and is sliced by code point index, which gives the same answer on
UTF-8 text. -/
def HasSuffix (s suffix : String) : Bool :=
  decide (s.length ≥ suffix.length) && (s.data.drop (s.length - suffix.length) == suffix.data)

/-- Go's `strings.TrimSuffix`: `s` without the trailing `suffix` when it has
one, `s` itself otherwise. -/
def TrimSuffix (s suffix : String) : String :=
  if HasSuffix s suffix then ⟨s.data.take (s.length - suffix.length)⟩ else s

/-- The call `lz4.NewReader(nil)`: a fresh decoder session, bound to nothing,
with no observer. -/
def NewReader (w : World) : World :=
  { w.log Event.NewReader with zr := ⟨Source.null, none⟩ }

/-- Modelled from the spec: the Decoder Session's `reset(source)` (the method
`Reset` of the lz4 reader, which is not among the sources) rebinds the session
to a new source; the registered observer is kept. -/
def Reset (src : Source) (w : World) : World :=
  { w.log (Event.Reset src) with zr := { w.zr with src := src } }

/-- Modelled from the spec: the Decoder Session's `registerObserver(hook)` (the
method `Apply` with `OnBlockDoneOption`) attaches or replaces the single
byte-count callback; `owner` names the iteration whose `size` the closure
captures. -/
def Apply (owner : Nat) (w : World) : World :=
  { w.log (Event.Apply owner) with zr := { w.zr with handler := some owner } }

/-- The declaration `var size int` of the loop iteration `fidx`. -/
def declSize (fidx : Nat) (w : World) : World :=
  { w with size := fun k => if k = fidx then 0 else w.size k }

/-- The registered observer, `func(n int) { size += n }`, called on a block. -/
def onBlockDone (n : Nat) (w : World) : World :=
  match w.zr.handler with
  | none => w
  | some owner =>
    { w.log (Event.BlockDone owner n) with
      size := fun k => if k = owner then w.size k + n else w.size k }

/-- The method `Write` of an `io.Writer`: `io.Discard` accepts everything, an
`io.MultiWriter` writes to its writers in turn and stops at the first error,
any other writer is an external call. -/
def Writer.Write (env : Env) : Writer → List UInt8 → World → World × Option Error
  | Writer.discard, _, w => (w, none)
  | Writer.multi a b, p, w =>
    match Writer.Write env a p w with
    | (w, some err) => (w, some err)
    | (w, none) => Writer.Write env b p w
  | Writer.stdout, p, w =>
    let r := env.write w.trace Writer.stdout p
    (w.log (Event.Write Writer.stdout p r), r)
  | Writer.file f, p, w =>
    let r := env.write w.trace (Writer.file f) p
    (w.log (Event.Write (Writer.file f) p r), r)
  | Writer.bar b, p, w =>
    let r := env.write w.trace (Writer.bar b) p
    (w.log (Event.Write (Writer.bar b) p r), r)

/-- Modelled from the spec: the Decoder Session's `decodeAll(sink)` (the method
`WriteTo` of the lz4 reader) drains the bound source, for each decoded block
invoking the observer and then writing the block to the sink; a failed write
ends the drain with that error, and after the last block the stream's own error
(malformed or truncated input), if any, is returned unchanged. -/
def WriteTo (env : Env) (dst : Writer) (terminal : Option Error) :
    List (List UInt8) → Int → World → World × Int × Option Error
  | [], n, w => (w, n, terminal)
  | blk :: rest, n, w =>
    match dst.Write env blk (onBlockDone blk.length w) with
    | (w, some err) => (w, n, some err)
    | (w, none) => WriteTo env dst terminal rest (n + blk.length) w

/-- The call `io.Copy(dst, zr)`: it delegates to the reader's `WriteTo`, on the
blocks the environment gives for the bound source when the copy starts, and
returns the number of bytes copied and the error. -/
def Copy (env : Env) (dst : Writer) (w : World) : World × Int × Option Error :=
  match WriteTo env dst (env.decode w.trace w.zr.src).2 (env.decode w.trace w.zr.src).1 0 w with
  | (w, n, err) => (w.log (Event.Copied dst n err), n, err)

/-- The call `os.Open(name)`; the handle is meaningful when the error is `none`. -/
def osOpen (env : Env) (name : String) (w : World) : World × File × Option Error :=
  (w.log (Event.Open name ⟨w.trace.length, name⟩ (env.osOpen w.trace name)),
    ⟨w.trace.length, name⟩, env.osOpen w.trace name)

/-- The call `os.OpenFile(name, flag, perm)`. -/
def osOpenFile (env : Env) (name : String) (flag : List OpenFlag) (perm : Nat) (w : World) :
    World × File × Option Error :=
  (w.log (Event.OpenFile name flag perm ⟨w.trace.length, name⟩ (env.openFile w.trace name flag perm)),
    ⟨w.trace.length, name⟩, env.openFile w.trace name flag perm)

/-- The call `io.ReadAll(f)`. -/
def ReadAll (env : Env) (f : File) (w : World) : World × List UInt8 × Option Error :=
  (w.log (Event.ReadAll f (env.readAll w.trace f).1 (env.readAll w.trace f).2),
    (env.readAll w.trace f).1, (env.readAll w.trace f).2)

/-- The call `f.Close()`. -/
def Close (env : Env) (f : File) (w : World) : World × Option Error :=
  (w.log (Event.Close f (env.close w.trace f)), env.close w.trace f)

/-- The call `f.Stat()`. -/
def Stat (env : Env) (f : File) (w : World) : World × FileInfo × Option Error :=
  (w.log (Event.Stat f (env.stat w.trace f).1 (env.stat w.trace f).2),
    (env.stat w.trace f).1, (env.stat w.trace f).2)

/-- The call `time.Now()` (also made by `time.Since`). -/
def Now (env : Env) (w : World) : World × Int :=
  (w.log (Event.Now (env.now w.trace)), env.now w.trace)

/-! ## The handler -/

/-- The benchmark loop `for i := 0; i < *bench; i++ { ... }` of one file, with
`todo` iterations left to run; `some err` is `return fidx, err`. -/
def benchLoop (env : Env) (compressed : List UInt8) : Nat → World → World × Option Error
  | 0, w => (w, none)
  | todo + 1, w =>
    let w := w.log (Event.Print [Val.str "\nDecompressing..."])
    let w := w.log Event.GC
    match Now env w with
    | (w, start) =>
    let w := Reset (Source.bytes compressed) w
    match Copy env Writer.discard w with
    | (w, _, some err) => (w, some err)
    | (w, output, none) =>
      match Now env w with
      | (w, t) =>
      let elapsed := t - start
      let ms := Val.durRound elapsed Millisecond
      let mbPerSec := F64.div (F64.div (F64.ofInt output) (F64.ofInt 1000000))
        (F64.div (F64.ofInt elapsed) (F64.ofInt Second))
      let pct := F64.div (F64.mul (F64.ofInt output) (F64.ofInt 100)) (F64.ofInt compressed.length)
      let w := w.log (Event.Printf " %d -> %d [%.02f%%]; %v, %.01fMB/s"
        [Val.int compressed.length, Val.int output, Val.f64 pct, ms, Val.f64 mbPerSec])
      benchLoop env compressed todo w

/-- The two closes `for _, c := range []io.Closer{zfile, file} { ... }`. -/
def closeAll (env : Env) : List File → World → World × Option Error
  | [], w => (w, none)
  | c :: rest, w =>
    match Close env c w with
    | (w, some err) => (w, some err)
    | (w, none) => closeAll env rest w

/-- Lines 40-62 of the loop body, the benchmark branch `if *bench > 0 { ... }`:
read the whole file, close it, run the benchmark loop. -/
def benchFile (env : Env) (bench : Int) (zfilename : String) (zfile : File) (w : World) :
    World × Option Error :=
  let w := w.log (Event.Print [Val.str "Reading ", Val.str zfilename, Val.str "..."])
  match ReadAll env zfile w with
  | (w, _, some err) => (w, some err)
  | (w, compressed, none) =>
  let w := (Close env zfile w).1
  match benchLoop env compressed bench.toNat w with
  | (w, some err) => (w, some err)
  | (w, none) =>
  let w := w.log (Event.Println [Val.str ""])
  (w, none)

/-- Lines 82-119 of the loop body: declare `size`, `out`, `zsize`, `bar`,
instrument the sink when `zsize > 0`, copy, close both files, print the
summary. -/
def decodeFile (env : Env) (fidx : Nat) (zfilename filename : String) (zfile file : File)
    (zsize : Int) (w : World) : World × Option Error :=
  let w := declSize fidx w
  match (if zsize > 0 then
      (some (⟨zsize, true, filename, true⟩ : Bar),
        Writer.multi (Writer.file file) (Writer.bar ⟨zsize, true, filename, true⟩),
        Apply fidx (w.log (Event.NewBar ⟨zsize, true, filename, true⟩)))
    else (none, Writer.file file, w)) with
  | (bar, out, w) =>
  match Copy env out w with
  | (w, _, some err) => (w, some err)
  | (w, _, none) =>
  match closeAll env [zfile, file] w with
  | (w, some err) => (w, some err)
  | (w, none) =>
  match bar with
  | some b =>
    let w := w.log (Event.BarClear b)
    let w := w.log (Event.Printf "%s %d\n" [Val.str zfilename, Val.int (w.size fidx)])
    (w, none)
  | none => (w, none)

/-- Lines 64-81 of the loop body, followed by `decodeFile`: stat the source,
create the destination with the source's mode, bind the decoder to the source,
stat the source again for its size. -/
def batchFile (env : Env) (lz4Extension : String) (fidx : Nat) (zfilename : String)
    (zfile : File) (w : World) : World × Option Error :=
  match Stat env zfile w with
  | (w, _, some err) => (w, some err)
  | (w, zinfo, none) =>
  let mode := zinfo.mode
  let filename := TrimSuffix zfilename lz4Extension
  match osOpenFile env filename [OpenFlag.O_CREATE, OpenFlag.O_WRONLY] mode w with
  | (w, _, some err) => (w, some err)
  | (w, file, none) =>
  let w := Reset (Source.file zfile) w
  match Stat env zfile w with
  | (w, _, some err) => (w, some err)
  | (w, zfinfo, none) => decodeFile env fidx zfilename filename zfile file zfinfo.size w

/-- The body of `for fidx, zfilename := range args { ... }` (lines 33-119);
`some err` is `return fidx, err`, `none` is reaching the end of the body (or
`continue`). -/
def fileBody (env : Env) (bench : Int) (lz4Extension : String) (fidx : Nat) (zfilename : String)
    (w : World) : World × Option Error :=
  match osOpen env zfilename w with
  | (w, _, some err) => (w, some err)
  | (w, zfile, none) =>
  if bench > 0 then benchFile env bench zfilename zfile w
  else batchFile env lz4Extension fidx zfilename zfile w

/-- The loop `for fidx, zfilename := range args`, from index `fidx` on; `some
(i, err)` is `return i, err` from inside the loop, `none` is the loop running
to its end. -/
def filesLoop (env : Env) (bench : Int) (lz4Extension : String) :
    Nat → List String → World → World × Option (Nat × Error)
  | _, [], w => (w, none)
  | fidx, zfilename :: rest, w =>
    match fileBody env bench lz4Extension fidx zfilename w with
    | (w, some err) => (w, some (fidx, err))
    | (w, none) => filesLoop env bench lz4Extension (fidx + 1) rest w

/-- The handler returned by `Uncompress(fs)`, with the value `bench` of the
`-bench` flag and the package constant `lz4Extension` as parameters.  Returns
the final state and the handler's `(int, error)`. -/
def Uncompress (env : Env) (bench : Int) (lz4Extension : String) (args : List String)
    (w : World) : World × Nat × Option Error :=
  let w := NewReader w
  if args.length = 0 then
    let w := Reset Source.stdin w
    match Copy env Writer.stdout w with
    | (w, _, err) => (w, 0, err)
  else
    match filesLoop env bench lz4Extension 0 args w with
    | (w, some (fidx, err)) => (w, fidx, some err)
    | (w, none) => (w, args.length, none)

/-! ## Reading a trace -/

/-- The error, if any, of a call whose outcome is a step of processing a file:
open, read-all, stat, create, decode (the whole copy), close. -/
def Event.stepErr : Event → Option Error
  | Event.Open _ _ err => err
  | Event.ReadAll _ _ err => err
  | Event.Stat _ _ err => err
  | Event.OpenFile _ _ _ _ err => err
  | Event.Copied _ _ err => err
  | Event.Close _ err => err
  | _ => none

/-- Is the call a `Close`? -/
def Event.isClose : Event → Bool
  | Event.Close _ _ => true
  | _ => false

/-- The error, if any, of a step whose result the handler looks at: as
`stepErr`, except that in benchmark mode (`bench > 0`) the result of `Close` is
dropped (line 45). -/
def Event.checkedErr (bench : Int) (x : Event) : Option Error :=
  if 0 < bench ∧ x.isClose = true then none else x.stepErr

/-- The name passed to `os.Open`, for an `Open` call. -/
def Event.openName : Event → Option String
  | Event.Open name _ _ => some name
  | _ => none

/-- The names passed to `os.Open`, in call order. -/
def opened (t : List Event) : List String := t.filterMap Event.openName

/-- The payload of a successful write to `dst`. -/
def Event.payloadTo (dst : Writer) : Event → Option (List UInt8)
  | Event.Write d p none => if d = dst then some p else none
  | _ => none

/-- The blocks successfully written to `dst`, in call order. -/
def written (dst : Writer) (t : List Event) : List (List UInt8) := t.filterMap (Event.payloadTo dst)

/-- The total number of bytes in a list of blocks. -/
def totalLen (blocks : List (List UInt8)) : Int := ((blocks.map List.length).sum : Nat)

/-- The source of a `Reset` call. -/
def Event.resetSrc : Event → Option Source
  | Event.Reset src => some src
  | _ => none

/-- The arguments of a `fmt.Printf` call. -/
def Event.printfArgs : Event → Option (List Val)
  | Event.Printf _ args => some args
  | _ => none

/-- Is the call `runtime.GC()`? -/
def Event.isGC : Event → Bool
  | Event.GC => true
  | _ => false

/-- Does the call carry a file mode?  Only `os.OpenFile` does. -/
def Event.touchesMode : Event → Bool
  | Event.OpenFile _ _ _ _ _ => true
  | _ => false

/-- Does the call create a file, open one for writing, or write to one? -/
def Event.touchesFile : Event → Bool
  | Event.OpenFile _ _ _ _ _ => true
  | Event.Write (Writer.file _) _ _ => true
  | _ => false

/-- Is the call made from inside a copy: a write to a sink or the block
observer? -/
def Event.inCopy : Event → Bool
  | Event.Write _ _ _ => true
  | Event.BlockDone _ _ => true
  | _ => false

/-- Is the call one the benchmark loop makes: printing, garbage collection,
clock, rebinding the decoder, the block observer, the copy's return? -/
def Event.inBench : Event → Bool
  | Event.Print _ => true
  | Event.Printf _ _ => true
  | Event.GC => true
  | Event.Now _ => true
  | Event.Reset _ => true
  | Event.BlockDone _ _ => true
  | Event.Copied _ _ _ => true
  | _ => false

/-- Is the call one `decodeFile` makes? -/
def Event.inDecode : Event → Bool
  | Event.NewBar _ => true
  | Event.Apply _ => true
  | Event.Write _ _ _ => true
  | Event.BlockDone _ _ => true
  | Event.Copied _ _ _ => true
  | Event.Close _ _ => true
  | Event.BarClear _ => true
  | Event.Printf _ _ => true
  | _ => false

/-- Is the call neither an open, a stat, a create, a copy's return nor a
close? -/
def Event.quiet : Event → Bool
  | Event.NewBar _ => true
  | Event.Apply _ => true
  | Event.Write _ _ _ => true
  | Event.BlockDone _ _ => true
  | Event.BarClear _ => true
  | Event.Printf _ _ => true
  | _ => false

/-! ## The modes of the files -/

/-- The permission bits of the files that exist, by path. -/
abbrev Modes := String → Option Nat

/-- The permission bits of a file that `os.OpenFile` creates: `perm` "before
umask" in the words of package `os`, that is `perm` without the bits set in the
process umask.  This is the operating system's rule, not code of the
repository. -/
def createdMode (umask perm : Nat) : Nat := perm ^^^ (perm &&& umask)

/-- The effect of one call on the modes of the files: a successful
`os.OpenFile` with `O_CREATE` on a path that does not exist creates the file
with `createdMode umask perm`; an existing file keeps its mode; no other call of
the handler touches a mode. -/
def Event.modeEffect (umask : Nat) (m : Modes) : Event → Modes
  | Event.OpenFile name flag perm _ none =>
    if OpenFlag.O_CREATE ∈ flag ∧ m name = none then
      fun p => if p = name then some (createdMode umask perm) else m p
    else m
  | _ => m

/-- The modes of the files after the calls `t`, from the modes `m`. -/
def modesAfter (umask : Nat) (m : Modes) (t : List Event) : Modes :=
  t.foldl (Event.modeEffect umask) m

/-! ## The shape of a run -/

/-- A write of `p` to `dst` hands `p` to `tgt`: it succeeds after writing `p`
to `tgt`, or fails because the write to `tgt` failed. -/
def Delivers (env : Env) (dst tgt : Writer) : Prop :=
  ∀ (p : List UInt8) (w : World), ∃ ws, (dst.Write env p w).1.trace = w.trace ++ ws ∧
    (((dst.Write env p w).2 = none ∧ written tgt ws = [p] ∧
        ∀ q e, Event.Write tgt q (some e) ∉ ws) ∨
      (written tgt ws = [] ∧ ∃ e, (dst.Write env p w).2 = some e ∧ Event.Write tgt p (some e) ∈ ws))

/-- What a copy into `dst` that delivers to `tgt` wrote to `tgt`, when the
progress bar's `Write` never fails: a prefix of the decoder's blocks, and all of
them unless a write to `tgt` failed. -/
def CopyFacts (env : Env) (h : List Event) (src : Source) (tgt : Writer) (ws : List Event)
    (cerr : Option Error) : Prop :=
  (∀ h' b p, env.write h' (Writer.bar b) p = none) →
    written tgt ws <+: (env.decode h src).1 ∧
    ((∀ q e, Event.Write tgt q (some e) ∉ ws) →
      written tgt ws = (env.decode h src).1 ∧ cerr = (env.decode h src).2) ∧
    (cerr = none → written tgt ws = (env.decode h src).1)

/-- The calls after the copy: nothing when the copy failed, else the closes and,
when both succeed, the summary. -/
inductive Closing (zf f : File) (summary : List Event) :
    Option Error → List Event → Option Error → Prop
  | copyErr (e : Error) : Closing zf f summary (some e) [] (some e)
  | srcErr (e : Error) : Closing zf f summary none [Event.Close zf (some e)] (some e)
  | dstErr (e : Error) :
      Closing zf f summary none [Event.Close zf none, Event.Close f (some e)] (some e)
  | done : Closing zf f summary none ([Event.Close zf none, Event.Close f none] ++ summary) none

/-- The calls of `decodeFile` started with history `h` and the decoder bound to
`src`. -/
inductive DecodeSeg (env : Env) (fidx : Nat) (zname fname : String) (zf f : File) (zsize : Int)
    (h : List Event) (src : Source) : List Event → Option Error → Prop
  | plain (hz : ¬ zsize > 0) (ws : List Event) (n : Int) (cerr : Option Error)
      (tail : List Event) (r : Option Error) (hws : ∀ x ∈ ws, x.inCopy = true)
      (hcopy : CopyFacts env h src (Writer.file f) ws cerr)
      (hcl : Closing zf f [] cerr tail r) :
      DecodeSeg env fidx zname fname zf f zsize h src
        (ws ++ [Event.Copied (Writer.file f) n cerr] ++ tail) r
  | instrumented (hz : zsize > 0) (ws : List Event) (n : Int) (cerr : Option Error)
      (tail : List Event) (r : Option Error) (sz : Int) (hws : ∀ x ∈ ws, x.inCopy = true)
      (hcopy : CopyFacts env
        (h ++ [Event.NewBar ⟨zsize, true, fname, true⟩, Event.Apply fidx]) src (Writer.file f)
        ws cerr)
      (hcl : Closing zf f [Event.BarClear ⟨zsize, true, fname, true⟩,
        Event.Printf "%s %d\n" [Val.str zname, Val.int sz]] cerr tail r) :
      DecodeSeg env fidx zname fname zf f zsize h src
        ([Event.NewBar ⟨zsize, true, fname, true⟩, Event.Apply fidx] ++ ws ++
          [Event.Copied (Writer.multi (Writer.file f) (Writer.bar ⟨zsize, true, fname, true⟩))
            n cerr] ++ tail) r

/-- The calls of the loop body for the file `z` in batch mode, started with
history `h`, and the body's outcome. -/
inductive BatchSeg (env : Env) (ext : String) (fidx : Nat) (z : String) (h : List Event) :
    List Event → Option Error → Prop
  | openErr (zf : File) (e : Error) :
      BatchSeg env ext fidx z h [Event.Open z zf (some e)] (some e)
  | statErr (zf : File) (i : FileInfo) (e : Error) :
      BatchSeg env ext fidx z h [Event.Open z zf none, Event.Stat zf i (some e)] (some e)
  | createErr (zf : File) (i : FileInfo) (f : File) (e : Error) :
      BatchSeg env ext fidx z h [Event.Open z zf none, Event.Stat zf i none,
        Event.OpenFile (TrimSuffix z ext) [OpenFlag.O_CREATE, OpenFlag.O_WRONLY] i.mode f
          (some e)] (some e)
  | sizeErr (zf : File) (i : FileInfo) (f : File) (i2 : FileInfo) (e : Error) :
      BatchSeg env ext fidx z h [Event.Open z zf none, Event.Stat zf i none,
        Event.OpenFile (TrimSuffix z ext) [OpenFlag.O_CREATE, OpenFlag.O_WRONLY] i.mode f none,
        Event.Reset (Source.file zf), Event.Stat zf i2 (some e)] (some e)
  | decoded (zf : File) (i : FileInfo) (f : File) (i2 : FileInfo) (t : List Event)
      (r : Option Error)
      (hd : DecodeSeg env fidx z (TrimSuffix z ext) zf f i2.size
        (h ++ [Event.Open z zf none, Event.Stat zf i none,
          Event.OpenFile (TrimSuffix z ext) [OpenFlag.O_CREATE, OpenFlag.O_WRONLY] i.mode f none,
          Event.Reset (Source.file zf), Event.Stat zf i2 none]) (Source.file zf) t r) :
      BatchSeg env ext fidx z h ([Event.Open z zf none, Event.Stat zf i none,
        Event.OpenFile (TrimSuffix z ext) [OpenFlag.O_CREATE, OpenFlag.O_WRONLY] i.mode f none,
        Event.Reset (Source.file zf), Event.Stat zf i2 none] ++ t) r

/-- The calls of the loop body for the file `z` in benchmark mode and the
body's outcome. -/
inductive BenchSeg (z : String) : List Event → Option Error → Prop
  | openErr (zf : File) (e : Error) : BenchSeg z [Event.Open z zf (some e)] (some e)
  | readErr (zf : File) (data : List UInt8) (e : Error) :
      BenchSeg z [Event.Open z zf none,
        Event.Print [Val.str "Reading ", Val.str z, Val.str "..."],
        Event.ReadAll zf data (some e)] (some e)
  | loopErr (zf : File) (data : List UInt8) (cr : Option Error) (pre : List Event) (n : Int)
      (e : Error) (hpre : ∀ x ∈ pre, x.inBench = true ∧ x.stepErr = none) :
      BenchSeg z ([Event.Open z zf none,
        Event.Print [Val.str "Reading ", Val.str z, Val.str "..."],
        Event.ReadAll zf data none, Event.Close zf cr] ++ pre ++
        [Event.Copied Writer.discard n (some e)]) (some e)
  | done (zf : File) (data : List UInt8) (cr : Option Error) (t : List Event)
      (ht : ∀ x ∈ t, x.inBench = true ∧ x.stepErr = none) :
      BenchSeg z ([Event.Open z zf none,
        Event.Print [Val.str "Reading ", Val.str z, Val.str "..."],
        Event.ReadAll zf data none, Event.Close zf cr] ++ t ++
        [Event.Println [Val.str ""]]) none

/-- No call of `t` failed, except possibly, in benchmark mode, a close (whose
result the handler does not look at). -/
def Clean (bench : Int) (t : List Event) : Prop :=
  ∀ x ∈ t, x.stepErr = none ∨ (0 < bench ∧ x.isClose = true)

/-- The outcome `r` is read off the calls `t`: with no error returned no step
failed; an error returned is that of the last call, the first step to fail. -/
def Outcome (bench : Int) (t : List Event) (r : Option Error) : Prop :=
  (r = none → Clean bench t) ∧
  (∀ e, r = some e → ∃ pre ev, t = pre ++ [ev] ∧ ev.stepErr = some e ∧ Clean bench pre)

/-- The calls of the loop body in either mode. -/
def BodySeg (env : Env) (bench : Int) (ext : String) (fidx : Nat) (z : String)
    (h t : List Event) (r : Option Error) : Prop :=
  (bench > 0 ∧ BenchSeg z t r) ∨ (¬ bench > 0 ∧ BatchSeg env ext fidx z h t r)

/-- The calls of the loop over the files `args`, entered at index `k` with
history `h`, and the loop's outcome. -/
inductive LoopRun (env : Env) (bench : Int) (ext : String) :
    Nat → List String → List Event → List Event → Option (Nat × Error) → Prop
  | finished (k : Nat) (h : List Event) : LoopRun env bench ext k [] h [] none
  | failed (k : Nat) (z : String) (rest : List String) (h s : List Event) (e : Error)
      (hs : BodySeg env bench ext k z h s (some e)) :
      LoopRun env bench ext k (z :: rest) h s (some (k, e))
  | next (k : Nat) (z : String) (rest : List String) (h s t : List Event)
      (r : Option (Nat × Error)) (hs : BodySeg env bench ext k z h s none)
      (ht : LoopRun env bench ext (k + 1) rest (h ++ s) t r) :
      LoopRun env bench ext k (z :: rest) h (s ++ t) r

/-! ## Sample environments -/

/-- An environment in which the file `a.lz4` has 3 bytes and decodes to the two
blocks `[1, 2]` and `[3]`. -/
def envTwoBlocks : Env where
  osOpen := fun _ _ => none
  readAll := fun _ _ => ([7, 8, 9], none)
  close := fun _ _ => none
  stat := fun _ _ => (⟨420, 3⟩, none)
  openFile := fun _ _ _ _ => none
  decode := fun _ _ => ([[1, 2], [3]], none)
  write := fun _ _ _ => none
  now := fun h => h.length

/-- An environment in which every `Close` fails; everything else succeeds, every
file holds 3 bytes and decodes to the single block `[1, 2]`. -/
def envCloseErr : Env where
  osOpen := fun _ _ => none
  readAll := fun _ _ => ([7, 8, 9], none)
  close := fun _ _ => some "close failed"
  stat := fun _ _ => (⟨420, 3⟩, none)
  openFile := fun _ _ _ _ => none
  decode := fun _ _ => ([[1, 2]], none)
  write := fun _ _ _ => none
  now := fun h => h.length

/-- An environment in which the file `b.lz4` is corrupted: decoding it fails
after one block; every other stream decodes to the single block `[1, 2]`. -/
def envCorruptSecond : Env where
  osOpen := fun _ _ => none
  readAll := fun _ f => if f.name = "b.lz4" then ([0], none) else ([7, 8, 9], none)
  close := fun _ _ => none
  stat := fun _ _ => (⟨420, 3⟩, none)
  openFile := fun _ _ _ _ => none
  decode := fun _ src =>
    match src with
    | Source.file f => if f.name = "b.lz4" then ([[5]], some "lz4: invalid frame") else ([[1, 2]], none)
    | Source.bytes buf => if buf = [0] then ([[5]], some "lz4: invalid frame") else ([[1, 2]], none)
    | _ => ([[1, 2]], none)
  write := fun _ _ _ => none
  now := fun h => h.length

/-- An environment in which no destination can be created. -/
def envCreateErr : Env where
  osOpen := fun _ _ => none
  readAll := fun _ _ => ([7, 8, 9], none)
  close := fun _ _ => none
  stat := fun _ _ => (⟨420, 3⟩, none)
  openFile := fun _ _ _ _ => some "permission denied"
  decode := fun _ _ => ([[1, 2]], none)
  write := fun _ _ _ => none
  now := fun h => h.length

/-- An environment in which every write to a file fails (the progress bar's
write succeeds); every stream decodes to the single block `[1, 2]`. -/
def envWriteErr : Env where
  osOpen := fun _ _ => none
  readAll := fun _ _ => ([7, 8, 9], none)
  close := fun _ _ => none
  stat := fun _ _ => (⟨420, 3⟩, none)
  openFile := fun _ _ _ _ => none
  decode := fun _ _ => ([[1, 2]], none)
  write := fun _ dst _ =>
    match dst with
    | Writer.file _ => some "no space left on device"
    | _ => none
  now := fun h => h.length

/-- The calls of the loop body for `a.lz4` in `envTwoBlocks` after the second
stat. -/
def restTwoBlocks : List Event :=
  [Event.NewBar ⟨3, true, "a", true⟩, Event.Apply 0,
    Event.BlockDone 0 2,
    Event.Write (Writer.file ⟨2, "a"⟩) [1, 2] none,
    Event.Write (Writer.bar ⟨3, true, "a", true⟩) [1, 2] none,
    Event.BlockDone 0 1,
    Event.Write (Writer.file ⟨2, "a"⟩) [3] none,
    Event.Write (Writer.bar ⟨3, true, "a", true⟩) [3] none,
    Event.Copied (Writer.multi (Writer.file ⟨2, "a"⟩) (Writer.bar ⟨3, true, "a", true⟩)) 3 none,
    Event.Close ⟨0, "a.lz4"⟩ none, Event.Close ⟨2, "a"⟩ none,
    Event.BarClear ⟨3, true, "a", true⟩,
    Event.Printf "%s %d\n" [Val.str "a.lz4", Val.int 3]]

/-- An environment in which every call succeeds and the source has mode
`0666` and 3 bytes, decoding to the single block `[1, 2]`. -/
def envMode666 : Env where
  osOpen := fun _ _ => none
  readAll := fun _ _ => ([7, 8, 9], none)
  close := fun _ _ => none
  stat := fun _ _ => (⟨0o666, 3⟩, none)
  openFile := fun _ _ _ _ => none
  decode := fun _ _ => ([[1, 2]], none)
  write := fun _ _ _ => none
  now := fun h => h.length

/-- The files before the handler runs on `a.lz4`: the source exists with mode
`0666`, the destination `a` does not exist. -/
def modesOnlySource : Modes := fun p => if p = "a.lz4" then some 0o666 else none

/-! # Theorems -/

/-! ## Basic facts about the primitive operations -/

@[simp] theorem log_trace (w : World) (e : Event) : (w.log e).trace = w.trace ++ [e] := rfl

@[simp] theorem log_zr (w : World) (e : Event) : (w.log e).zr = w.zr := rfl

@[simp] theorem log_size (w : World) (e : Event) : (w.log e).size = w.size := rfl

@[simp] theorem Reset_trace (src : Source) (w : World) :
    (Reset src w).trace = w.trace ++ [Event.Reset src] := rfl

@[simp] theorem Reset_src (src : Source) (w : World) : (Reset src w).zr.src = src := rfl

@[simp] theorem Reset_handler (src : Source) (w : World) :
    (Reset src w).zr.handler = w.zr.handler := rfl

@[simp] theorem Apply_trace (k : Nat) (w : World) :
    (Apply k w).trace = w.trace ++ [Event.Apply k] := rfl

@[simp] theorem Apply_src (k : Nat) (w : World) : (Apply k w).zr.src = w.zr.src := rfl

@[simp] theorem declSize_trace (k : Nat) (w : World) : (declSize k w).trace = w.trace := rfl

@[simp] theorem declSize_zr (k : Nat) (w : World) : (declSize k w).zr = w.zr := rfl

@[simp] theorem NewReader_trace (w : World) :
    (NewReader w).trace = w.trace ++ [Event.NewReader] := rfl

@[simp] theorem NewReader_handler (w : World) : (NewReader w).zr.handler = none := rfl

theorem TrimSuffix_append (s ext : String) : TrimSuffix (s ++ ext) ext = s := by
  have hlen : (s ++ ext).length - ext.length = s.data.length := by
    rw [String.length_append]
    exact Nat.add_sub_cancel s.length ext.length
  have hdata : (s ++ ext).data = s.data ++ ext.data := String.data_append s ext
  have hge : (s ++ ext).length ≥ ext.length := by
    rw [String.length_append]
    exact Nat.le_add_left _ _
  unfold TrimSuffix HasSuffix
  rw [hlen, hdata, List.drop_left, List.take_left]
  simp [hge]

theorem TrimSuffix_of_not_HasSuffix (s ext : String) (h : HasSuffix s ext = false) :
    TrimSuffix s ext = s := by
  simp [TrimSuffix, h]

/-! ## The copy -/

theorem Write_trace (env : Env) (dst : Writer) (p : List UInt8) (w : World) :
    ∃ ws, (dst.Write env p w).1.trace = w.trace ++ ws ∧ (∀ x ∈ ws, x.inCopy = true) ∧
      (dst.Write env p w).1.zr = w.zr := by
  induction dst generalizing w with
  | stdout => exact ⟨[_], rfl, by simp [Event.inCopy], rfl⟩
  | discard => exact ⟨[], by simp [Writer.Write], by simp, rfl⟩
  | file f => exact ⟨[_], rfl, by simp [Event.inCopy], rfl⟩
  | bar b => exact ⟨[_], rfl, by simp [Event.inCopy], rfl⟩
  | multi a b iha ihb =>
    obtain ⟨wa, ha, hca, hza⟩ := iha w
    rw [Writer.Write]
    rcases hr : Writer.Write env a p w with ⟨w1, r⟩
    rw [hr] at ha hza
    cases r with
    | some e => exact ⟨wa, ha, hca, hza⟩
    | none =>
      obtain ⟨wb, hb, hcb, hzb⟩ := ihb w1
      refine ⟨wa ++ wb, ?_, ?_, ?_⟩
      · simp only [hb]
        simp only at ha
        rw [ha, List.append_assoc]
      · intro x hx
        rcases List.mem_append.1 hx with h | h
        · exact hca x h
        · exact hcb x h
      · simp only [hzb]
        exact hza

theorem onBlockDone_trace (n : Nat) (w : World) :
    ∃ ws, (onBlockDone n w).trace = w.trace ++ ws ∧ (∀ x ∈ ws, x.inCopy = true) ∧
      (onBlockDone n w).zr = w.zr ∧ (w.zr.handler = none → ws = []) := by
  unfold onBlockDone
  cases h : w.zr.handler with
  | none => exact ⟨[], by simp, by simp, rfl, fun _ => rfl⟩
  | some k => exact ⟨[_], rfl, by simp [Event.inCopy], rfl, by simp⟩

theorem WriteTo_trace (env : Env) (dst : Writer) (terminal : Option Error)
    (blocks : List (List UInt8)) (n : Int) (w : World) :
    ∃ ws, (WriteTo env dst terminal blocks n w).1.trace = w.trace ++ ws ∧
      (∀ x ∈ ws, x.inCopy = true) := by
  induction blocks generalizing n w with
  | nil => exact ⟨[], by simp [WriteTo], by simp⟩
  | cons blk rest ih =>
    obtain ⟨w1, h1, hc1, -, -⟩ := onBlockDone_trace blk.length w
    obtain ⟨w2, h2, hc2, -⟩ := Write_trace env dst blk (onBlockDone blk.length w)
    rw [WriteTo]
    rcases hr : Writer.Write env dst blk (onBlockDone blk.length w) with ⟨w', r⟩
    rw [hr] at h2
    simp only at h2
    cases r with
    | some e =>
      refine ⟨w1 ++ w2, by simp only [h2, h1, List.append_assoc], ?_⟩
      intro x hx
      rcases List.mem_append.1 hx with h | h
      · exact hc1 x h
      · exact hc2 x h
    | none =>
      obtain ⟨w3, h3, hc3⟩ := ih (n + blk.length) w'
      refine ⟨w1 ++ w2 ++ w3, by simp only [h3, h2, h1, List.append_assoc], ?_⟩
      intro x hx
      rcases List.mem_append.1 hx with h | h
      · rcases List.mem_append.1 h with h | h
        · exact hc1 x h
        · exact hc2 x h
      · exact hc3 x h

theorem Copy_trace (env : Env) (dst : Writer) (w : World) :
    ∃ ws, (Copy env dst w).1.trace =
        w.trace ++ ws ++ [Event.Copied dst (Copy env dst w).2.1 (Copy env dst w).2.2] ∧
      (∀ x ∈ ws, x.inCopy = true) := by
  obtain ⟨ws, h, hc⟩ :=
    WriteTo_trace env dst (env.decode w.trace w.zr.src).2 (env.decode w.trace w.zr.src).1 0 w
  refine ⟨ws, ?_, hc⟩
  unfold Copy
  rcases hr : WriteTo env dst (env.decode w.trace w.zr.src).2 (env.decode w.trace w.zr.src).1 0 w
    with ⟨w', n, err⟩
  rw [hr] at h
  simp only [log_trace]
  simp only at h
  rw [h]

theorem written_append (tgt : Writer) (a b : List Event) :
    written tgt (a ++ b) = written tgt a ++ written tgt b := by
  simp [written]

theorem written_inert (tgt : Writer) (ws : List Event)
    (h : ∀ x ∈ ws, Event.payloadTo tgt x = none) : written tgt ws = [] := by
  simp only [written, List.filterMap_eq_nil_iff]
  exact h

theorem onBlockDone_written (tgt : Writer) (n : Nat) (w : World) :
    ∃ ws, (onBlockDone n w).trace = w.trace ++ ws ∧ written tgt ws = [] ∧
      ∀ q e, Event.Write tgt q (some e) ∉ ws := by
  unfold onBlockDone
  cases h : w.zr.handler with
  | none => exact ⟨[], by simp, rfl, by simp⟩
  | some k => exact ⟨[_], rfl, rfl, by simp⟩

theorem WriteTo_written (env : Env) (dst tgt : Writer) (hd : Delivers env dst tgt)
    (terminal : Option Error) (blocks : List (List UInt8)) (n : Int) (w : World) :
    ∃ ws, (WriteTo env dst terminal blocks n w).1.trace = w.trace ++ ws ∧
      written tgt ws <+: blocks ∧
      ((∀ q e, Event.Write tgt q (some e) ∉ ws) →
        written tgt ws = blocks ∧ (WriteTo env dst terminal blocks n w).2.2 = terminal) ∧
      ((WriteTo env dst terminal blocks n w).2.2 = none →
        written tgt ws = blocks ∧ terminal = none ∧
          (WriteTo env dst terminal blocks n w).2.1 = n + totalLen blocks) := by
  induction blocks generalizing n w with
  | nil => exact ⟨[], by simp [WriteTo], by simp [written], by simp [WriteTo, written],
      by simp [WriteTo, written, totalLen]⟩
  | cons blk rest ih =>
    obtain ⟨w1, h1, hw1, hf1⟩ := onBlockDone_written tgt blk.length w
    obtain ⟨w2, h2, hcase⟩ := hd blk (onBlockDone blk.length w)
    rw [WriteTo]
    rcases hr : Writer.Write env dst blk (onBlockDone blk.length w) with ⟨w', r⟩
    rw [hr] at h2 hcase
    simp only at h2 hcase
    rcases hcase with ⟨hnone, hw2, hf2⟩ | ⟨hw2, e, hsome, hmem⟩
    · subst hnone
      obtain ⟨w3, h3, hp3, hall3, hok3⟩ := ih (n + blk.length) w'
      refine ⟨w1 ++ w2 ++ w3, by simp only [h3, h2, h1, List.append_assoc], ?_, ?_, ?_⟩
      · rw [written_append, written_append, hw1, hw2]
        simpa using hp3
      · intro hno
        have hno3 : ∀ q e, Event.Write tgt q (some e) ∉ w3 := fun q e hm =>
          hno q e (List.mem_append_right _ hm)
        obtain ⟨ha, hb⟩ := hall3 hno3
        rw [written_append, written_append, hw1, hw2, ha]
        exact ⟨rfl, hb⟩
      · intro hres
        obtain ⟨ha, hb, hc⟩ := hok3 hres
        rw [written_append, written_append, hw1, hw2, ha]
        refine ⟨rfl, hb, ?_⟩
        rw [hc]
        simp only [totalLen, List.map_cons, List.sum_cons]
        push_cast
        ring
    · subst hsome
      refine ⟨w1 ++ w2, by simp only [h2, h1, List.append_assoc], ?_, ?_, ?_⟩
      · rw [written_append, hw1, hw2]
        simp
      · intro hno
        exact absurd (List.mem_append_right _ hmem) (hno blk e)
      · intro hres
        simp at hres

theorem Delivers_stdout (env : Env) : Delivers env Writer.stdout Writer.stdout := by
  intro p w
  refine ⟨[Event.Write Writer.stdout p (env.write w.trace Writer.stdout p)], rfl, ?_⟩
  cases h : env.write w.trace Writer.stdout p with
  | none => left; simp [Writer.Write, h, written, Event.payloadTo]
  | some e => right; simp [Writer.Write, h, written, Event.payloadTo]

theorem Delivers_file (env : Env) (f : File) : Delivers env (Writer.file f) (Writer.file f) := by
  intro p w
  refine ⟨[Event.Write (Writer.file f) p (env.write w.trace (Writer.file f) p)], rfl, ?_⟩
  cases h : env.write w.trace (Writer.file f) p with
  | none => left; simp [Writer.Write, h, written, Event.payloadTo]
  | some e => right; simp [Writer.Write, h, written, Event.payloadTo]

theorem Delivers_multi (env : Env) (f : File) (b : Bar)
    (hbar : ∀ h p, env.write h (Writer.bar b) p = none) :
    Delivers env (Writer.multi (Writer.file f) (Writer.bar b)) (Writer.file f) := by
  intro p w
  cases h : env.write w.trace (Writer.file f) p with
  | none =>
    refine ⟨[Event.Write (Writer.file f) p none, Event.Write (Writer.bar b) p none], ?_, ?_⟩
    · simp [Writer.Write, h, hbar, World.log]
    · left; simp [Writer.Write, h, hbar, written, Event.payloadTo]
  | some e =>
    refine ⟨[Event.Write (Writer.file f) p (some e)], ?_, ?_⟩
    · simp [Writer.Write, h, World.log]
    · right; simp [Writer.Write, h, written, Event.payloadTo]

theorem WriteTo_stdout_events (env : Env) (terminal : Option Error)
    (blocks : List (List UInt8)) (n : Int) (w : World) (hh : w.zr.handler = none) :
    ∃ ws, (WriteTo env Writer.stdout terminal blocks n w).1.trace = w.trace ++ ws ∧
      ∀ x ∈ ws, ∃ p r, x = Event.Write Writer.stdout p r := by
  induction blocks generalizing n w with
  | nil => exact ⟨[], by simp [WriteTo], by simp⟩
  | cons blk rest ih =>
    have hb : onBlockDone blk.length w = w := by simp [onBlockDone, hh]
    rw [WriteTo, hb]
    cases hr : env.write w.trace Writer.stdout blk with
    | some e =>
      exact ⟨[Event.Write Writer.stdout blk (some e)], by simp [Writer.Write, hr],
        by simp⟩
    | none =>
      obtain ⟨ws, h, hall⟩ := ih (n + blk.length)
        (w.log (Event.Write Writer.stdout blk none)) (by simpa using hh)
      refine ⟨Event.Write Writer.stdout blk none :: ws, ?_, ?_⟩
      · simp only [Writer.Write, hr, h, log_trace, List.append_assoc, List.singleton_append]
      · intro x hx
        rcases List.mem_cons.1 hx with rfl | hx
        · exact ⟨_, _, rfl⟩
        · exact hall x hx

/-! ## Pass-through mode -/

theorem Copy_stdout_run (env : Env) (w : World) (hh : w.zr.handler = none) :
    ∃ ws, (Copy env Writer.stdout w).1.trace =
        w.trace ++ ws ++ [Event.Copied Writer.stdout (Copy env Writer.stdout w).2.1
          (Copy env Writer.stdout w).2.2] ∧
      (∀ x ∈ ws, ∃ p r, x = Event.Write Writer.stdout p r) ∧
      written Writer.stdout ws <+: (env.decode w.trace w.zr.src).1 ∧
      ((Copy env Writer.stdout w).2.2 = none →
        written Writer.stdout ws = (env.decode w.trace w.zr.src).1) := by
  obtain ⟨ws, h1, hall⟩ := WriteTo_stdout_events env (env.decode w.trace w.zr.src).2
    (env.decode w.trace w.zr.src).1 0 w hh
  obtain ⟨ws', h2, hpre, -, hok⟩ := WriteTo_written env Writer.stdout Writer.stdout
    (Delivers_stdout env) (env.decode w.trace w.zr.src).2 (env.decode w.trace w.zr.src).1 0 w
  have hws : ws' = ws := List.append_cancel_left (h2.symm.trans h1)
  subst hws
  refine ⟨ws', ?_, hall, hpre, ?_⟩
  · simp only [Copy, log_trace, h1]
  · intro hres
    exact (hok (by simpa [Copy] using hres)).1

/-- C4: called with no argument, whatever the benchmark count, the handler
makes exactly these calls: it creates the decoder, binds it to standard input,
writes decoded blocks to standard output (a prefix of the decoder's blocks, all
of them when the copy succeeds) and the copy returns; the handler returns index
0 with exactly the copy's error.  No other call (open, create, progress bar,
observer, benchmark iteration) is made. -/
theorem Uncompress_passthrough (env : Env) (bench : Int) (lz4Extension : String) (w0 : World) :
    ∃ ws n, (Uncompress env bench lz4Extension [] w0).1.trace =
        w0.trace ++ [Event.NewReader, Event.Reset Source.stdin] ++ ws ++
          [Event.Copied Writer.stdout n (Uncompress env bench lz4Extension [] w0).2.2] ∧
      (Uncompress env bench lz4Extension [] w0).2.1 = 0 ∧
      (∀ x ∈ ws, ∃ p r, x = Event.Write Writer.stdout p r) ∧
      written Writer.stdout ws <+:
        (env.decode (w0.trace ++ [Event.NewReader, Event.Reset Source.stdin]) Source.stdin).1 ∧
      ((Uncompress env bench lz4Extension [] w0).2.2 = none →
        written Writer.stdout ws =
          (env.decode (w0.trace ++ [Event.NewReader, Event.Reset Source.stdin]) Source.stdin).1) := by
  obtain ⟨ws, ht, hall, hpre, hok⟩ :=
    Copy_stdout_run env (Reset Source.stdin (NewReader w0)) (by simp)
  have htr : (Reset Source.stdin (NewReader w0)).trace =
      w0.trace ++ [Event.NewReader, Event.Reset Source.stdin] := by simp
  have hsrc : (Reset Source.stdin (NewReader w0)).zr.src = Source.stdin := rfl
  rw [htr, hsrc] at hpre hok
  rw [htr] at ht
  refine ⟨ws, (Copy env Writer.stdout (Reset Source.stdin (NewReader w0))).2.1, ?_, ?_, hall,
    hpre, ?_⟩
  · simpa [Uncompress] using ht
  · simp [Uncompress]
  · intro hres
    exact hok (by simpa [Uncompress] using hres)

theorem WriteTo_discard (env : Env) (terminal : Option Error) (blocks : List (List UInt8))
    (n : Int) (w : World) :
    (WriteTo env Writer.discard terminal blocks n w).2 = (n + totalLen blocks, terminal) := by
  induction blocks generalizing n w with
  | nil => simp [WriteTo, totalLen]
  | cons blk rest ih =>
    rw [WriteTo]
    simp only [Writer.Write]
    rw [ih]
    simp only [totalLen, List.map_cons, List.sum_cons]
    push_cast
    rw [Int.add_assoc]

theorem Copy_discard (env : Env) (buf : List UInt8) (blocks : List (List UInt8))
    (hdec : ∀ h, env.decode h (Source.bytes buf) = (blocks, none)) (w : World)
    (hsrc : w.zr.src = Source.bytes buf) :
    ∃ ws, (Copy env Writer.discard w).1.trace =
        w.trace ++ ws ++ [Event.Copied Writer.discard (totalLen blocks) none] ∧
      (∀ x ∈ ws, x.inCopy = true) ∧
      (Copy env Writer.discard w).2 = (totalLen blocks, none) := by
  obtain ⟨ws, h, hc⟩ := Copy_trace env Writer.discard w
  have hres : (Copy env Writer.discard w).2 = (totalLen blocks, none) := by
    have := WriteTo_discard env (env.decode w.trace w.zr.src).2 (env.decode w.trace w.zr.src).1 0 w
    rw [hsrc, hdec] at this
    simp only [Copy, hsrc, hdec]
    rw [Prod.ext_iff] at this
    simp only [Int.zero_add] at this
    exact Prod.ext this.1 this.2
  refine ⟨ws, ?_, hc, hres⟩
  rw [h, hres]

theorem filterMap_inCopy {β : Type} (f : Event → Option β) (ws : List Event)
    (hf : ∀ x, x.inCopy = true → f x = none) (hc : ∀ x ∈ ws, x.inCopy = true) :
    ws.filterMap f = [] := by
  rw [List.filterMap_eq_nil_iff]
  exact fun x hx => hf x (hc x hx)

theorem countP_inCopy (f : Event → Bool) (ws : List Event)
    (hf : ∀ x, x.inCopy = true → f x = false) (hc : ∀ x ∈ ws, x.inCopy = true) :
    ws.countP f = 0 := by
  rw [List.countP_eq_zero]
  intro x hx
  simp [hf x (hc x hx)]

theorem benchLoop_counts (env : Env) (buf : List UInt8) (blocks : List (List UInt8))
    (hdec : ∀ h, env.decode h (Source.bytes buf) = (blocks, none)) (N : Nat) (w : World) :
    ∃ t, (benchLoop env buf N w).1.trace = w.trace ++ t ∧
      (benchLoop env buf N w).2 = none ∧
      t.countP Event.isGC = N ∧
      t.filterMap Event.resetSrc = List.replicate N (Source.bytes buf) ∧
      (t.filterMap Event.printfArgs).map (List.take 3) =
        List.replicate N [Val.int buf.length, Val.int (totalLen blocks),
          Val.f64 (F64.div (F64.mul (F64.ofInt (totalLen blocks)) (F64.ofInt 100))
            (F64.ofInt buf.length))] := by
  induction N generalizing w with
  | zero => exact ⟨[], by simp [benchLoop], rfl, rfl, rfl, rfl⟩
  | succ k ih =>
    rw [benchLoop]
    simp only [Now]
    generalize env.now ((w.log (Event.Print [Val.str "\nDecompressing..."])).log Event.GC).trace
      = start
    obtain ⟨ws, hct, hcc, hcr⟩ := Copy_discard env buf blocks hdec
      (Reset (Source.bytes buf)
        (((w.log (Event.Print [Val.str "\nDecompressing..."])).log Event.GC).log
          (Event.Now start))) rfl
    rcases hcopy : Copy env Writer.discard (Reset (Source.bytes buf)
        (((w.log (Event.Print [Val.str "\nDecompressing..."])).log Event.GC).log
          (Event.Now start)))
      with ⟨w1, n, err⟩
    rw [hcopy] at hct hcr
    simp only [Prod.mk.injEq] at hcr
    obtain ⟨rfl, rfl⟩ := hcr
    simp only
    have hw1 : w1.trace = w.trace ++ ([Event.Print [Val.str "\nDecompressing..."], Event.GC,
        Event.Now start, Event.Reset (Source.bytes buf)] ++ ws ++
        [Event.Copied Writer.discard (totalLen blocks) none]) := by
      simpa using hct
    generalize env.now w1.trace = t2
    obtain ⟨t, ht, hres, hgc, hreset, hrep⟩ := ih
      ((w1.log (Event.Now t2)).log
        (Event.Printf " %d -> %d [%.02f%%]; %v, %.01fMB/s"
          [Val.int buf.length, Val.int (totalLen blocks),
            Val.f64 (F64.div (F64.mul (F64.ofInt (totalLen blocks)) (F64.ofInt 100))
              (F64.ofInt buf.length)),
            Val.durRound (t2 - start) Millisecond,
            Val.f64 (F64.div (F64.div (F64.ofInt (totalLen blocks)) (F64.ofInt 1000000))
              (F64.div (F64.ofInt (t2 - start)) (F64.ofInt Second)))]))
    have e1 := filterMap_inCopy Event.resetSrc ws
      (by intro x; cases x <;> simp [Event.inCopy, Event.resetSrc]) hcc
    have e2 := filterMap_inCopy Event.printfArgs ws
      (by intro x; cases x <;> simp [Event.inCopy, Event.printfArgs]) hcc
    have e3 := countP_inCopy Event.isGC ws
      (by intro x; cases x <;> simp [Event.inCopy, Event.isGC]) hcc
    refine ⟨[Event.Print [Val.str "\nDecompressing..."], Event.GC, Event.Now start,
        Event.Reset (Source.bytes buf)] ++ ws ++
      [Event.Copied Writer.discard (totalLen blocks) none, Event.Now t2,
        Event.Printf " %d -> %d [%.02f%%]; %v, %.01fMB/s"
          [Val.int buf.length, Val.int (totalLen blocks),
            Val.f64 (F64.div (F64.mul (F64.ofInt (totalLen blocks)) (F64.ofInt 100))
              (F64.ofInt buf.length)),
            Val.durRound (t2 - start) Millisecond,
            Val.f64 (F64.div (F64.div (F64.ofInt (totalLen blocks)) (F64.ofInt 1000000))
              (F64.div (F64.ofInt (t2 - start)) (F64.ofInt Second)))]] ++ t,
      ?_, hres, ?_, ?_, ?_⟩
    · rw [ht]
      simp only [log_trace, hw1, List.append_assoc, List.cons_append, List.nil_append]
    · simp [List.countP_append, List.countP_cons, e3, hgc, Event.isGC]
    · simp [List.filterMap_append, List.filterMap_cons, e1, hreset, Event.resetSrc,
        List.replicate_succ]
    · simp [List.filterMap_append, List.filterMap_cons, e2, hrep, Event.printfArgs,
        List.replicate_succ]

theorem Copy_run (env : Env) (dst : Writer) (f : File)
    (hd : (∀ h' b p, env.write h' (Writer.bar b) p = none) → Delivers env dst (Writer.file f))
    (w : World) :
    ∃ ws, (Copy env dst w).1.trace =
        w.trace ++ ws ++ [Event.Copied dst (Copy env dst w).2.1 (Copy env dst w).2.2] ∧
      (∀ x ∈ ws, x.inCopy = true) ∧
      CopyFacts env w.trace w.zr.src (Writer.file f) ws (Copy env dst w).2.2 := by
  obtain ⟨ws, h, hc⟩ := Copy_trace env dst w
  refine ⟨ws, h, hc, ?_⟩
  intro hbar
  obtain ⟨ws', h', hpre, hall, hok⟩ := WriteTo_written env dst (Writer.file f) (hd hbar)
    (env.decode w.trace w.zr.src).2 (env.decode w.trace w.zr.src).1 0 w
  have hws : ws' = ws := by
    have h2 : (Copy env dst w).1.trace = w.trace ++ ws' ++
        [Event.Copied dst (Copy env dst w).2.1 (Copy env dst w).2.2] := by
      simp only [Copy, log_trace, h']
    have := h2.symm.trans h
    simp only [List.append_assoc] at this
    have := List.append_cancel_left this
    exact List.append_cancel_right this
  subst hws
  refine ⟨hpre, ?_, ?_⟩
  · intro hno
    exact ⟨(hall hno).1, by simpa [Copy] using (hall hno).2⟩
  · intro hres
    exact (hok (by simpa [Copy] using hres)).1

theorem closeAll_run (env : Env) (zf f : File) (summary : List Event) (w : World) :
    ∃ t, (closeAll env [zf, f] w).1.trace = w.trace ++ t ∧
      ((closeAll env [zf, f] w).2 = none → t = [Event.Close zf none, Event.Close f none]) ∧
      (∀ e, (closeAll env [zf, f] w).2 = some e →
        Closing zf f summary none t (some e)) := by
  simp only [closeAll, Close]
  cases h1 : env.close w.trace zf with
  | some e =>
    refine ⟨[Event.Close zf (some e)], by simp, by simp, ?_⟩
    intro e' he'
    simp only [Option.some.injEq] at he'
    subst he'
    exact Closing.srcErr e
  | none =>
    simp only [log_trace]
    cases h2 : env.close (w.trace ++ [Event.Close zf none]) f with
    | some e =>
      refine ⟨[Event.Close zf none, Event.Close f (some e)], by simp, by simp, ?_⟩
      intro e' he'
      simp only [Option.some.injEq] at he'
      subst he'
      exact Closing.dstErr e
    | none =>
      exact ⟨[Event.Close zf none, Event.Close f none], by simp, by simp, by simp⟩

theorem decodeFile_run (env : Env) (fidx : Nat) (zname fname : String) (zf f : File)
    (zsize : Int) (w : World) :
    ∃ t, (decodeFile env fidx zname fname zf f zsize w).1.trace = w.trace ++ t ∧
      DecodeSeg env fidx zname fname zf f zsize w.trace w.zr.src t
        (decodeFile env fidx zname fname zf f zsize w).2 := by
  unfold decodeFile
  by_cases hz : zsize > 0
  · simp only [hz, if_true]
    obtain ⟨ws, hct, hws, hfacts⟩ := Copy_run env
      (Writer.multi (Writer.file f) (Writer.bar ⟨zsize, true, fname, true⟩)) f
      (fun hbar => Delivers_multi env f _ (fun h p => hbar h _ p))
      (Apply fidx ((declSize fidx w).log (Event.NewBar ⟨zsize, true, fname, true⟩)))
    rcases hc : Copy env (Writer.multi (Writer.file f) (Writer.bar ⟨zsize, true, fname, true⟩))
      (Apply fidx ((declSize fidx w).log (Event.NewBar ⟨zsize, true, fname, true⟩)))
      with ⟨w1, n, cerr⟩
    rw [hc] at hct hfacts
    simp only [Apply_trace, log_trace, declSize_trace, Apply_src, log_zr, declSize_zr,
      List.append_assoc] at hct hfacts
    cases cerr with
    | some e =>
      exact ⟨_, by simpa using hct,
        DecodeSeg.instrumented hz ws n (some e) [] (some e) 0 hws
          (by simpa using hfacts) (Closing.copyErr e)⟩
    | none =>
      obtain ⟨tc, htc, hnone, hsome⟩ := closeAll_run env zf f
        [Event.BarClear ⟨zsize, true, fname, true⟩,
          Event.Printf "%s %d\n" [Val.str zname, Val.int (w1.size fidx)]] w1
      simp only
      rcases hcl : closeAll env [zf, f] w1 with ⟨w2, cr⟩
      rw [hcl] at htc hnone hsome
      simp only at htc hnone hsome
      cases cr with
      | some e =>
        refine ⟨_, ?_, DecodeSeg.instrumented hz ws n none tc (some e) (w1.size fidx) hws
          (by simpa using hfacts) (hsome e rfl)⟩
        simp [htc, hct]
      | none =>
        refine ⟨_, ?_, DecodeSeg.instrumented hz ws n none _ none (w2.size fidx) hws
          (by simpa using hfacts) Closing.done⟩
        simp [htc, hnone rfl, hct]
  · simp only [hz, if_false]
    obtain ⟨ws, hct, hws, hfacts⟩ := Copy_run env (Writer.file f) f
      (fun _ => Delivers_file env f) (declSize fidx w)
    rcases hc : Copy env (Writer.file f) (declSize fidx w) with ⟨w1, n, cerr⟩
    rw [hc] at hct hfacts
    simp only [declSize_trace, declSize_zr] at hct hfacts
    cases cerr with
    | some e =>
      exact ⟨_, by simpa using hct,
        DecodeSeg.plain hz ws n (some e) [] (some e) hws hfacts (Closing.copyErr e)⟩
    | none =>
      obtain ⟨tc, htc, hnone, hsome⟩ := closeAll_run env zf f [] w1
      simp only
      rcases hcl : closeAll env [zf, f] w1 with ⟨w2, cr⟩
      rw [hcl] at htc hnone hsome
      simp only at htc hnone hsome
      cases cr with
      | some e =>
        refine ⟨_, ?_, DecodeSeg.plain hz ws n none tc (some e) hws hfacts (hsome e rfl)⟩
        simp [htc, hct]
      | none =>
        refine ⟨_, ?_, DecodeSeg.plain hz ws n none _ none hws hfacts Closing.done⟩
        simp [htc, hnone rfl, hct]

theorem batchFile_run (env : Env) (ext : String) (fidx : Nat) (z : String) (zf : File)
    (h : List Event) (w : World) (hw : w.trace = h ++ [Event.Open z zf none]) :
    ∃ t, (batchFile env ext fidx z zf w).1.trace = h ++ t ∧
      BatchSeg env ext fidx z h t (batchFile env ext fidx z zf w).2 := by
  unfold batchFile
  simp only [Stat, osOpenFile]
  rcases hs1 : env.stat w.trace zf with ⟨i, r1⟩
  cases r1 with
  | some e => exact ⟨_, by simp [hw], BatchSeg.statErr zf i e⟩
  | none =>
    simp only [log_trace]
    cases hc : env.openFile (w.trace ++ [Event.Stat zf i none]) (TrimSuffix z ext)
      [OpenFlag.O_CREATE, OpenFlag.O_WRONLY] i.mode with
    | some e =>
      exact ⟨_, by simp [hw], BatchSeg.createErr zf i
        ⟨(w.trace ++ [Event.Stat zf i none]).length, TrimSuffix z ext⟩ e⟩
    | none =>
      simp only [Reset_trace, log_trace]
      rcases hs2 : env.stat (w.trace ++ [Event.Stat zf i none] ++
        [Event.OpenFile (TrimSuffix z ext) [OpenFlag.O_CREATE, OpenFlag.O_WRONLY] i.mode
          ⟨(w.trace ++ [Event.Stat zf i none]).length, TrimSuffix z ext⟩ none] ++
        [Event.Reset (Source.file zf)]) zf with ⟨i2, r2⟩
      cases r2 with
      | some e =>
        exact ⟨_, by simp [hw], BatchSeg.sizeErr zf i
          ⟨(w.trace ++ [Event.Stat zf i none]).length, TrimSuffix z ext⟩ i2 e⟩
      | none =>
        simp only
        obtain ⟨t, ht, hseg⟩ := decodeFile_run env fidx z (TrimSuffix z ext) zf
          ⟨(w.trace ++ [Event.Stat zf i none]).length, TrimSuffix z ext⟩ i2.size
          ((Reset (Source.file zf) ((w.log (Event.Stat zf i none)).log
            (Event.OpenFile (TrimSuffix z ext) [OpenFlag.O_CREATE, OpenFlag.O_WRONLY] i.mode
              ⟨(w.trace ++ [Event.Stat zf i none]).length, TrimSuffix z ext⟩ none))).log
            (Event.Stat zf i2 none))
        refine ⟨_, ?_, BatchSeg.decoded zf i
          ⟨(w.trace ++ [Event.Stat zf i none]).length, TrimSuffix z ext⟩ i2 t _ ?_⟩
        · rw [ht]
          simp [hw]
        · simpa [hw] using hseg

theorem fileBody_batch (env : Env) (bench : Int) (ext : String) (fidx : Nat) (z : String)
    (w : World) (hb : ¬ bench > 0) :
    ∃ t, (fileBody env bench ext fidx z w).1.trace = w.trace ++ t ∧
      BatchSeg env ext fidx z w.trace t (fileBody env bench ext fidx z w).2 := by
  unfold fileBody
  simp only [osOpen, hb, if_false]
  cases ho : env.osOpen w.trace z with
  | some e => exact ⟨_, rfl, BatchSeg.openErr _ e⟩
  | none =>
    simp only
    exact batchFile_run env ext fidx z _ w.trace _ rfl

theorem WriteTo_discard_trace (env : Env) (terminal : Option Error)
    (blocks : List (List UInt8)) (n : Int) (w : World) :
    ∃ ws, (WriteTo env Writer.discard terminal blocks n w).1.trace = w.trace ++ ws ∧
      ∀ x ∈ ws, x.inBench = true ∧ x.stepErr = none := by
  induction blocks generalizing n w with
  | nil => exact ⟨[], by simp [WriteTo], by simp⟩
  | cons blk rest ih =>
    rw [WriteTo]
    simp only [Writer.Write]
    obtain ⟨ws, h, hall⟩ := ih (n + blk.length) (onBlockDone blk.length w)
    unfold onBlockDone at h ⊢
    cases hh : w.zr.handler with
    | none =>
      rw [hh] at h
      exact ⟨ws, h, hall⟩
    | some k =>
      rw [hh] at h
      refine ⟨Event.BlockDone k blk.length :: ws, by simpa using h, ?_⟩
      intro x hx
      rcases List.mem_cons.1 hx with rfl | hx
      · exact ⟨rfl, rfl⟩
      · exact hall x hx

theorem benchLoop_run (env : Env) (buf : List UInt8) (N : Nat) (w : World) :
    ∃ t, (benchLoop env buf N w).1.trace = w.trace ++ t ∧
      ((benchLoop env buf N w).2 = none → ∀ x ∈ t, x.inBench = true ∧ x.stepErr = none) ∧
      (∀ e, (benchLoop env buf N w).2 = some e → ∃ pre n,
        t = pre ++ [Event.Copied Writer.discard n (some e)] ∧
        ∀ x ∈ pre, x.inBench = true ∧ x.stepErr = none) := by
  induction N generalizing w with
  | zero => exact ⟨[], by simp [benchLoop], by simp, by simp [benchLoop]⟩
  | succ k ih =>
    rw [benchLoop]
    simp only [Now, Copy]
    generalize env.now ((w.log (Event.Print [Val.str "\nDecompressing..."])).log Event.GC).trace
      = start
    generalize hwr : Reset (Source.bytes buf)
      (((w.log (Event.Print [Val.str "\nDecompressing..."])).log Event.GC).log
        (Event.Now start)) = wr
    have hwrt : wr.trace = w.trace ++ [Event.Print [Val.str "\nDecompressing..."], Event.GC,
        Event.Now start, Event.Reset (Source.bytes buf)] := by
      rw [← hwr]
      simp
    obtain ⟨ws, hws, hall⟩ := WriteTo_discard_trace env (env.decode wr.trace wr.zr.src).2
      (env.decode wr.trace wr.zr.src).1 0 wr
    rcases hwt : WriteTo env Writer.discard (env.decode wr.trace wr.zr.src).2
      (env.decode wr.trace wr.zr.src).1 0 wr with ⟨w1, n, cerr⟩
    rw [hwt] at hws
    simp only at hws
    have hhead : ∀ x ∈ [Event.Print [Val.str "\nDecompressing..."], Event.GC,
        Event.Now start, Event.Reset (Source.bytes buf)] ++ ws,
        x.inBench = true ∧ x.stepErr = none := by
      intro x hx
      rcases List.mem_append.1 hx with hx | hx
      · simp only [List.mem_cons, List.mem_singleton, List.not_mem_nil, or_false] at hx
        rcases hx with rfl | rfl | rfl | rfl <;> exact ⟨rfl, rfl⟩
      · exact hall x hx
    cases cerr with
    | some e =>
      refine ⟨[Event.Print [Val.str "\nDecompressing..."], Event.GC,
        Event.Now start, Event.Reset (Source.bytes buf)] ++ ws ++
        [Event.Copied Writer.discard n (some e)], by simp [hws, hwrt], by simp, ?_⟩
      intro e' he'
      simp only [Option.some.injEq] at he'
      subst he'
      exact ⟨_, n, rfl, hhead⟩
    | none =>
      simp only
      generalize env.now (w1.log (Event.Copied Writer.discard n none)).trace = t2
      generalize hpf : Event.Printf " %d -> %d [%.02f%%]; %v, %.01fMB/s"
          [Val.int buf.length, Val.int n,
            Val.f64 (F64.div (F64.mul (F64.ofInt n) (F64.ofInt 100)) (F64.ofInt buf.length)),
            Val.durRound (t2 - start) Millisecond,
            Val.f64 (F64.div (F64.div (F64.ofInt n) (F64.ofInt 1000000))
              (F64.div (F64.ofInt (t2 - start)) (F64.ofInt Second)))] = pf
      obtain ⟨t, ht, hok, hfail⟩ := ih
        (((w1.log (Event.Copied Writer.discard n none)).log (Event.Now t2)).log pf)
      have hmid : ∀ x ∈ [Event.Print [Val.str "\nDecompressing..."], Event.GC,
          Event.Now start, Event.Reset (Source.bytes buf)] ++ ws ++
          [Event.Copied Writer.discard n none, Event.Now t2, pf],
          x.inBench = true ∧ x.stepErr = none := by
        intro x hx
        rcases List.mem_append.1 hx with hx | hx
        · exact hhead x hx
        · simp only [List.mem_cons, List.mem_singleton, List.not_mem_nil, or_false] at hx
          rcases hx with rfl | rfl | rfl
          · exact ⟨rfl, rfl⟩
          · exact ⟨rfl, rfl⟩
          · rw [← hpf]
            exact ⟨rfl, rfl⟩
      refine ⟨[Event.Print [Val.str "\nDecompressing..."], Event.GC,
        Event.Now start, Event.Reset (Source.bytes buf)] ++ ws ++
        [Event.Copied Writer.discard n none, Event.Now t2, pf] ++ t, ?_, ?_, ?_⟩
      · rw [ht]
        simp [hws, hwrt]
      · intro hres x hx
        rcases List.mem_append.1 hx with hx | hx
        · exact hmid x hx
        · exact hok hres x hx
      · intro e he
        obtain ⟨pre, m, hpre, hall'⟩ := hfail e he
        refine ⟨[Event.Print [Val.str "\nDecompressing..."], Event.GC,
          Event.Now start, Event.Reset (Source.bytes buf)] ++ ws ++
          [Event.Copied Writer.discard n none, Event.Now t2, pf] ++ pre, m, ?_, ?_⟩
        · rw [hpre]
          simp
        · intro x hx
          rcases List.mem_append.1 hx with hx | hx
          · exact hmid x hx
          · exact hall' x hx

theorem fileBody_bench (env : Env) (bench : Int) (ext : String) (fidx : Nat) (z : String)
    (w : World) (hb : bench > 0) :
    ∃ t, (fileBody env bench ext fidx z w).1.trace = w.trace ++ t ∧
      BenchSeg z t (fileBody env bench ext fidx z w).2 := by
  unfold fileBody
  simp only [osOpen, hb, if_true]
  cases ho : env.osOpen w.trace z with
  | some e => exact ⟨_, rfl, BenchSeg.openErr _ e⟩
  | none =>
    simp only
    unfold benchFile
    simp only [ReadAll, Close]
    generalize hzf : (⟨w.trace.length, z⟩ : File) = zf
    rcases hr : env.readAll ((w.log (Event.Open z zf none)).log
      (Event.Print [Val.str "Reading ", Val.str z, Val.str "..."])).trace zf with ⟨data, rerr⟩
    cases rerr with
    | some e => exact ⟨_, by simp, BenchSeg.readErr zf data e⟩
    | none =>
      simp only
      generalize hcr : env.close (((w.log (Event.Open z zf none)).log
        (Event.Print [Val.str "Reading ", Val.str z, Val.str "..."])).log
          (Event.ReadAll zf data none)).trace zf = cr
      obtain ⟨t, ht, hok, hfail⟩ := benchLoop_run env data bench.toNat
        ((((w.log (Event.Open z zf none)).log
          (Event.Print [Val.str "Reading ", Val.str z, Val.str "..."])).log
            (Event.ReadAll zf data none)).log (Event.Close zf cr))
      rcases hl : benchLoop env data bench.toNat
        ((((w.log (Event.Open z zf none)).log
          (Event.Print [Val.str "Reading ", Val.str z, Val.str "..."])).log
            (Event.ReadAll zf data none)).log (Event.Close zf cr)) with ⟨w1, r⟩
      rw [hl] at ht hok hfail
      simp only at ht hok hfail
      cases r with
      | some e =>
        obtain ⟨pre, n, hpre, hall⟩ := hfail e rfl
        subst hpre
        exact ⟨_, by simp [ht], BenchSeg.loopErr zf data cr pre n e hall⟩
      | none =>
        exact ⟨_, by simp [ht], BenchSeg.done zf data cr t (hok rfl)⟩

theorem Clean_append {bench : Int} {a b : List Event} (ha : Clean bench a) (hb : Clean bench b) :
    Clean bench (a ++ b) := by
  intro x hx
  rcases List.mem_append.1 hx with h | h
  · exact ha x h
  · exact hb x h

theorem Clean_of_stepErr {bench : Int} {t : List Event} (h : ∀ x ∈ t, x.stepErr = none) :
    Clean bench t := fun x hx => Or.inl (h x hx)

theorem Clean_inCopy {bench : Int} {ws : List Event} (h : ∀ x ∈ ws, x.inCopy = true) :
    Clean bench ws := by
  refine Clean_of_stepErr (fun x hx => ?_)
  have := h x hx
  cases x <;> simp_all [Event.inCopy, Event.stepErr]

theorem Outcome_append {bench : Int} {a b : List Event} {r : Option Error}
    (ha : Clean bench a) (hb : Outcome bench b r) : Outcome bench (a ++ b) r := by
  refine ⟨fun hr => Clean_append ha (hb.1 hr), fun e he => ?_⟩
  obtain ⟨pre, ev, hpre, hev, hc⟩ := hb.2 e he
  exact ⟨a ++ pre, ev, by rw [hpre, List.append_assoc], hev, Clean_append ha hc⟩

theorem Outcome_fail {bench : Int} {ev : Event} {e : Error} (h : ev.stepErr = some e) :
    Outcome bench [ev] (some e) := by
  refine ⟨by simp, fun e' he' => ?_⟩
  simp only [Option.some.injEq] at he'
  subst he'
  exact ⟨[], ev, rfl, h, by simp [Clean]⟩

theorem Outcome_ok {bench : Int} {t : List Event} (h : Clean bench t) : Outcome bench t none :=
  ⟨fun _ => h, by simp⟩

theorem Closing_outcome {bench : Int} {zf f : File} {summary : List Event} {n : Int}
    {dst : Writer} {cerr : Option Error} {tail : List Event} {r : Option Error}
    (hs : ∀ x ∈ summary, x.stepErr = none) (h : Closing zf f summary cerr tail r) :
    Outcome bench ([Event.Copied dst n cerr] ++ tail) r := by
  cases h with
  | copyErr e => exact Outcome_fail rfl
  | srcErr e =>
    exact Outcome_append (a := [Event.Copied dst n none]) (Clean_of_stepErr (by simp [Event.stepErr]))
      (Outcome_fail rfl)
  | dstErr e =>
    exact Outcome_append (a := [Event.Copied dst n none, Event.Close zf none])
      (Clean_of_stepErr (by simp [Event.stepErr])) (Outcome_fail rfl)
  | done =>
    refine Outcome_ok (Clean_of_stepErr ?_)
    intro x hx
    simp only [List.singleton_append, List.cons_append, List.nil_append, List.mem_cons] at hx
    rcases hx with rfl | rfl | rfl | hx
    · rfl
    · rfl
    · rfl
    · exact hs x hx

theorem DecodeSeg_outcome {bench : Int} {env : Env} {fidx : Nat} {zname fname : String}
    {zf f : File} {zsize : Int} {h : List Event} {src : Source} {t : List Event}
    {r : Option Error} (hd : DecodeSeg env fidx zname fname zf f zsize h src t r) :
    Outcome bench t r := by
  cases hd with
  | plain hz ws n cerr tail r hws hcopy hcl =>
    rw [List.append_assoc]
    exact Outcome_append (Clean_inCopy hws) (Closing_outcome (by simp) hcl)
  | instrumented hz ws n cerr tail r sz hws hcopy hcl =>
    rw [List.append_assoc, List.append_assoc]
    refine Outcome_append (Clean_of_stepErr (by simp [Event.stepErr])) ?_
    exact Outcome_append (Clean_inCopy hws) (Closing_outcome (by simp [Event.stepErr]) hcl)

theorem BatchSeg_outcome {bench : Int} {env : Env} {ext : String} {fidx : Nat} {z : String}
    {h t : List Event} {r : Option Error} (hs : BatchSeg env ext fidx z h t r) :
    Outcome bench t r := by
  cases hs with
  | openErr zf e => exact Outcome_fail rfl
  | statErr zf i e =>
    exact Outcome_append (a := [Event.Open z zf none])
      (Clean_of_stepErr (by simp [Event.stepErr])) (Outcome_fail rfl)
  | createErr zf i f e =>
    exact Outcome_append (a := [Event.Open z zf none, Event.Stat zf i none])
      (Clean_of_stepErr (by simp [Event.stepErr])) (Outcome_fail rfl)
  | sizeErr zf i f i2 e =>
    exact Outcome_append (a := [Event.Open z zf none, Event.Stat zf i none,
        Event.OpenFile (TrimSuffix z ext) [OpenFlag.O_CREATE, OpenFlag.O_WRONLY] i.mode f none,
        Event.Reset (Source.file zf)])
      (Clean_of_stepErr (by simp [Event.stepErr])) (Outcome_fail rfl)
  | decoded zf i f i2 t r hd =>
    exact Outcome_append (Clean_of_stepErr (by simp [Event.stepErr])) (DecodeSeg_outcome hd)

theorem BenchSeg_outcome {bench : Int} (hb : 0 < bench) {z : String} {t : List Event}
    {r : Option Error} (hs : BenchSeg z t r) : Outcome bench t r := by
  have hhead : ∀ (zf : File) (data : List UInt8) (cr : Option Error),
      Clean bench [Event.Open z zf none,
        Event.Print [Val.str "Reading ", Val.str z, Val.str "..."],
        Event.ReadAll zf data none, Event.Close zf cr] := by
    intro zf data cr x hx
    simp only [List.mem_cons, List.mem_singleton, List.not_mem_nil, or_false] at hx
    rcases hx with rfl | rfl | rfl | rfl
    · exact Or.inl rfl
    · exact Or.inl rfl
    · exact Or.inl rfl
    · exact Or.inr ⟨hb, rfl⟩
  cases hs with
  | openErr zf e => exact Outcome_fail rfl
  | readErr zf data e =>
    exact Outcome_append (a := [Event.Open z zf none,
        Event.Print [Val.str "Reading ", Val.str z, Val.str "..."]])
      (Clean_of_stepErr (by simp [Event.stepErr])) (Outcome_fail rfl)
  | loopErr zf data cr pre n e hpre =>
    rw [List.append_assoc]
    refine Outcome_append (hhead zf data cr) ?_
    exact Outcome_append (Clean_of_stepErr (fun x hx => (hpre x hx).2)) (Outcome_fail rfl)
  | done zf data cr t ht =>
    rw [List.append_assoc]
    refine Outcome_ok (Clean_append (hhead zf data cr) (Clean_of_stepErr ?_))
    intro x hx
    rcases List.mem_append.1 hx with hx | hx
    · exact (ht x hx).2
    · simp only [List.mem_singleton] at hx
      subst hx
      rfl

theorem opened_append (a b : List Event) : opened (a ++ b) = opened a ++ opened b := by
  simp [opened]

theorem opened_inCopy {ws : List Event} (h : ∀ x ∈ ws, x.inCopy = true) : opened ws = [] :=
  filterMap_inCopy Event.openName ws
    (by intro x; cases x <;> simp [Event.inCopy, Event.openName]) h

theorem opened_inBench {t : List Event} (h : ∀ x ∈ t, x.inBench = true ∧ x.stepErr = none) :
    opened t = [] := by
  simp only [opened, List.filterMap_eq_nil_iff]
  intro x hx
  have := (h x hx).1
  cases x <;> simp_all [Event.inBench, Event.openName]

theorem Closing_opened {zf f : File} {summary : List Event} {cerr : Option Error}
    {tail : List Event} {r : Option Error} (hs : opened summary = [])
    (h : Closing zf f summary cerr tail r) : opened tail = [] := by
  cases h with
  | copyErr e => rfl
  | srcErr e => rfl
  | dstErr e => rfl
  | done =>
    rw [opened_append, hs]
    rfl

theorem BatchSeg_opened {env : Env} {ext : String} {fidx : Nat} {z : String}
    {h t : List Event} {r : Option Error} (hs : BatchSeg env ext fidx z h t r) :
    opened t = [z] := by
  cases hs with
  | openErr zf e => rfl
  | statErr zf i e => rfl
  | createErr zf i f e => rfl
  | sizeErr zf i f i2 e => rfl
  | decoded zf i f i2 t r hd =>
    rw [opened_append]
    cases hd with
    | plain hz ws n cerr tail r hws hcopy hcl =>
      rw [opened_append, opened_append, opened_inCopy hws,
        @Closing_opened _ _ [] _ _ _ rfl hcl]
      rfl
    | instrumented hz ws n cerr tail r sz hws hcopy hcl =>
      have hcl' := Closing_opened (by rfl) hcl
      rw [opened_append, opened_append, opened_append, opened_inCopy hws, hcl']
      rfl

theorem BenchSeg_opened {z : String} {t : List Event} {r : Option Error}
    (hs : BenchSeg z t r) : opened t = [z] := by
  cases hs with
  | openErr zf e => rfl
  | readErr zf data e => rfl
  | loopErr zf data cr pre n e hpre =>
    rw [opened_append, opened_append, opened_inBench hpre]
    rfl
  | done zf data cr t ht =>
    rw [opened_append, opened_append, opened_inBench ht]
    rfl

theorem fileBody_run (env : Env) (bench : Int) (ext : String) (fidx : Nat) (z : String)
    (w : World) :
    ∃ t, (fileBody env bench ext fidx z w).1.trace = w.trace ++ t ∧
      BodySeg env bench ext fidx z w.trace t (fileBody env bench ext fidx z w).2 := by
  by_cases hb : bench > 0
  · obtain ⟨t, ht, hs⟩ := fileBody_bench env bench ext fidx z w hb
    exact ⟨t, ht, Or.inl ⟨hb, hs⟩⟩
  · obtain ⟨t, ht, hs⟩ := fileBody_batch env bench ext fidx z w hb
    exact ⟨t, ht, Or.inr ⟨hb, hs⟩⟩

theorem filesLoop_run (env : Env) (bench : Int) (ext : String) (k : Nat) (args : List String)
    (w : World) :
    ∃ t, (filesLoop env bench ext k args w).1.trace = w.trace ++ t ∧
      LoopRun env bench ext k args w.trace t (filesLoop env bench ext k args w).2 := by
  induction args generalizing k w with
  | nil => exact ⟨[], by simp [filesLoop], LoopRun.finished k w.trace⟩
  | cons z rest ih =>
    obtain ⟨s, hs, hseg⟩ := fileBody_run env bench ext k z w
    rw [filesLoop]
    rcases hb : fileBody env bench ext k z w with ⟨w1, r⟩
    rw [hb] at hs hseg
    simp only at hs hseg
    cases r with
    | some e => exact ⟨s, hs, LoopRun.failed k z rest w.trace s e hseg⟩
    | none =>
      obtain ⟨t, ht, hrun⟩ := ih (k + 1) w1
      refine ⟨s ++ t, ?_, ?_⟩
      · simp only [ht, hs, List.append_assoc]
      · rw [hs] at hrun
        exact LoopRun.next k z rest w.trace s t _ hseg hrun

theorem BodySeg_outcome {env : Env} {bench : Int} {ext : String} {fidx : Nat} {z : String}
    {h t : List Event} {r : Option Error} (hs : BodySeg env bench ext fidx z h t r) :
    Outcome bench t r ∧ opened t = [z] := by
  rcases hs with ⟨hb, hs⟩ | ⟨-, hs⟩
  · exact ⟨BenchSeg_outcome hb hs, BenchSeg_opened hs⟩
  · exact ⟨BatchSeg_outcome hs, BatchSeg_opened hs⟩

theorem LoopRun_outcome {env : Env} {bench : Int} {ext : String} {k : Nat}
    {args : List String} {h t : List Event} {r : Option (Nat × Error)}
    (hrun : LoopRun env bench ext k args h t r) :
    (r = none → Clean bench t ∧ opened t = args) ∧
    (∀ i e, r = some (i, e) → k ≤ i ∧ i < k + args.length ∧
      opened t = args.take (i - k + 1) ∧
      ∃ pre ev, t = pre ++ [ev] ∧ ev.stepErr = some e ∧ Clean bench pre) := by
  induction hrun with
  | finished k h => exact ⟨fun _ => ⟨by simp [Clean], rfl⟩, by simp⟩
  | failed k z rest h s e hs =>
    obtain ⟨hout, hop⟩ := BodySeg_outcome hs
    refine ⟨by simp, fun i e' hie => ?_⟩
    simp only [Option.some.injEq, Prod.mk.injEq] at hie
    obtain ⟨rfl, rfl⟩ := hie
    refine ⟨le_refl _, by simp, by simp [hop], hout.2 e rfl⟩
  | next k z rest h s t r hs ht ih =>
    obtain ⟨hout, hop⟩ := BodySeg_outcome hs
    refine ⟨fun hr => ?_, fun i e hie => ?_⟩
    · obtain ⟨hc, ho⟩ := ih.1 hr
      exact ⟨Clean_append (hout.1 rfl) hc, by rw [opened_append, hop, ho]; rfl⟩
    · obtain ⟨hk, hi, ho, pre, ev, hpre, hev, hc⟩ := ih.2 i e hie
      refine ⟨by omega, by simp only [List.length_cons]; omega, ?_,
        s ++ pre, ev, by rw [hpre, List.append_assoc], hev, Clean_append (hout.1 rfl) hc⟩
      rw [opened_append, hop, ho]
      have : i - k + 1 = (i - (k + 1) + 1) + 1 := by omega
      rw [this, List.take_succ_cons]
      rfl

theorem BenchSeg_fail_last {z : String} {t : List Event} {e : Error}
    (hs : BenchSeg z t (some e)) : ∃ pre ev, t = pre ++ [ev] ∧ ev.isClose = false := by
  cases hs with
  | openErr zf e => exact ⟨[], _, rfl, rfl⟩
  | readErr zf data e =>
    exact ⟨[Event.Open z zf none,
      Event.Print [Val.str "Reading ", Val.str z, Val.str "..."]], _, rfl, rfl⟩
  | loopErr zf data cr pre n e hpre => exact ⟨_, _, rfl, rfl⟩

theorem LoopRun_fail_last {env : Env} {bench : Int} {ext : String} {k : Nat}
    {args : List String} {h t : List Event} {r : Option (Nat × Error)} (hb : 0 < bench)
    (hrun : LoopRun env bench ext k args h t r) :
    ∀ p, r = some p → ∃ pre ev, t = pre ++ [ev] ∧ ev.isClose = false := by
  induction hrun with
  | finished k h => simp
  | failed k z rest h s e hs =>
    intro _ _
    rcases hs with ⟨-, hs⟩ | ⟨hn, -⟩
    · exact BenchSeg_fail_last hs
    · exact absurd hb hn
  | next k z rest h s t r hs ht ih =>
    intro p hp
    obtain ⟨pre, ev, hpre, hev⟩ := ih p hp
    exact ⟨s ++ pre, ev, by rw [hpre, List.append_assoc], hev⟩

theorem checkedErr_of_Clean {bench : Int} {l : List Event} (hl : Clean bench l) :
    ∀ x ∈ l, x.checkedErr bench = none := by
  intro x hx
  unfold Event.checkedErr
  rcases hl x hx with h | h
  · rw [h]
    exact ite_self none
  · rw [if_pos h]

/-- C1: the code at the failing input.  Every `Close` fails.  In benchmark mode
(one file, one iteration) the failed close of the source is not looked at and the
handler returns `(1, nil)`; in batch mode, on the same file, the failed close of
the same source handle is returned as `(0, close error)`. -/
theorem Uncompress_bench_close_unchecked :
    ((Uncompress envCloseErr 1 ".lz4" ["a.lz4"] World.init).2 = (1, none) ∧
      Event.Close ⟨1, "a.lz4"⟩ (some "close failed") ∈
        (Uncompress envCloseErr 1 ".lz4" ["a.lz4"] World.init).1.trace) ∧
    ((Uncompress envCloseErr 0 ".lz4" ["a.lz4"] World.init).2 = (0, some "close failed") ∧
      Event.Close ⟨1, "a.lz4"⟩ (some "close failed") ∈
        (Uncompress envCloseErr 0 ".lz4" ["a.lz4"] World.init).1.trace) := by
  decide

/-- What the handler returns on a non-empty argument list, for any benchmark
count.  After creating the decoder it makes calls `t` such that: the files
opened are, in order, the arguments up to and including the returned index; if
it returns no error, the index is `len(args)` and no step whose result it looks
at failed; if it returns the error `e`, the index is below `len(args)`, `e` is
the error of the last call made, that call is a step whose result it looks at,
and no such step failed before.  The steps it looks at are open, read-all,
stat, create, the copy and, in batch mode only, close. -/
theorem Uncompress_first_checked_failure (env : Env) (bench : Int) (ext : String)
    (args : List String) (w0 : World) (hargs : args ≠ []) :
    ∃ t, (Uncompress env bench ext args w0).1.trace = w0.trace ++ Event.NewReader :: t ∧
      opened t = args.take ((Uncompress env bench ext args w0).2.1 + 1) ∧
      ((Uncompress env bench ext args w0).2.2 = none →
        (Uncompress env bench ext args w0).2.1 = args.length ∧
        ∀ x ∈ t, x.checkedErr bench = none) ∧
      (∀ e, (Uncompress env bench ext args w0).2.2 = some e →
        (Uncompress env bench ext args w0).2.1 < args.length ∧
        ∃ pre ev, t = pre ++ [ev] ∧ ev.checkedErr bench = some e ∧
          ∀ x ∈ pre, x.checkedErr bench = none) := by
  have hlen : ¬ args.length = 0 := by
    intro h
    exact hargs (List.length_eq_zero.1 h)
  obtain ⟨t, ht, hrun⟩ := filesLoop_run env bench ext 0 args (NewReader w0)
  have hout := LoopRun_outcome hrun
  have hlast : 0 < bench → ∀ p, (filesLoop env bench ext 0 args (NewReader w0)).2 = some p →
      ∃ pre ev, t = pre ++ [ev] ∧ ev.isClose = false := fun hb => LoopRun_fail_last hb hrun
  unfold Uncompress
  simp only [hlen, if_false]
  rcases hl : filesLoop env bench ext 0 args (NewReader w0) with ⟨w1, r⟩
  rw [hl] at ht hout hlast
  simp only at ht hout hlast
  refine ⟨t, ?_, ?_⟩
  · cases r with
    | none => simpa using ht
    | some p => simpa using ht
  · cases r with
    | none =>
      obtain ⟨hc, ho⟩ := hout.1 rfl
      exact ⟨by simp [ho], fun _ => ⟨rfl, checkedErr_of_Clean hc⟩, by simp⟩
    | some p =>
      obtain ⟨i, e⟩ := p
      obtain ⟨-, hi, ho, pre, ev, hpre, hev, hc⟩ := hout.2 i e rfl
      refine ⟨by simpa using ho, by simp, fun e' he' => ?_⟩
      simp only [Option.some.injEq] at he'
      subst he'
      refine ⟨by simpa using hi, pre, ev, hpre, ?_, checkedErr_of_Clean hc⟩
      unfold Event.checkedErr
      by_cases hb : 0 < bench
      · obtain ⟨pre', ev', hpre', hev'⟩ := hlast hb (i, e) rfl
        have heq : ev = ev' := by
          have h1 := congrArg List.getLast? hpre
          rw [hpre'] at h1
          simpa using h1.symm
        rw [heq, if_neg (by simp [hev']), ← heq]
        exact hev
      · rw [if_neg (fun h => hb h.1)]
        exact hev

/-- Three files of which the second is corrupted, in batch mode: the handler
returns index 1 with the decoder's error, and opens the first two files only. -/
theorem Uncompress_second_of_three_corrupted :
    (Uncompress envCorruptSecond 0 ".lz4" ["a.lz4", "b.lz4", "c.lz4"] World.init).2 =
      (1, some "lz4: invalid frame") ∧
    opened (Uncompress envCorruptSecond 0 ".lz4" ["a.lz4", "b.lz4", "c.lz4"] World.init).1.trace =
      ["a.lz4", "b.lz4"] := by
  decide

theorem Closing_events {zf f : File} {summary : List Event} {cerr : Option Error}
    {tail : List Event} {r : Option Error} (hs : ∀ x ∈ summary, x.inDecode = true)
    (h : Closing zf f summary cerr tail r) : ∀ x ∈ tail, x.inDecode = true := by
  cases h with
  | copyErr e => simp
  | srcErr e => simp [Event.inDecode]
  | dstErr e => simp [Event.inDecode]
  | done =>
    intro x hx
    simp only [List.cons_append, List.nil_append, List.mem_cons] at hx
    rcases hx with rfl | rfl | hx
    · rfl
    · rfl
    · exact hs x hx

theorem DecodeSeg_events {env : Env} {fidx : Nat} {zname fname : String}
    {zf f : File} {zsize : Int} {h : List Event} {src : Source} {t : List Event}
    {r : Option Error} (hd : DecodeSeg env fidx zname fname zf f zsize h src t r) :
    ∀ x ∈ t, x.inDecode = true := by
  have hcopy : ∀ ws : List Event, (∀ x ∈ ws, x.inCopy = true) → ∀ x ∈ ws, x.inDecode = true := by
    intro ws hws x hx
    have := hws x hx
    cases x <;> simp_all [Event.inCopy, Event.inDecode]
  cases hd with
  | plain hz ws n cerr tail r hws hcopy' hcl =>
    intro x hx
    simp only [List.mem_append, List.mem_singleton] at hx
    rcases hx with (hx | rfl) | hx
    · exact hcopy ws hws x hx
    · rfl
    · exact Closing_events (by simp) hcl x hx
  | instrumented hz ws n cerr tail r sz hws hcopy' hcl =>
    intro x hx
    simp only [List.mem_append, List.mem_singleton, List.mem_cons, List.not_mem_nil,
      or_false] at hx
    rcases hx with (((rfl | rfl) | hx) | rfl) | hx
    · rfl
    · rfl
    · exact hcopy ws hws x hx
    · rfl
    · exact Closing_events (by simp [Event.inDecode]) hcl x hx

theorem BatchSeg_create {env : Env} {ext : String} {fidx : Nat} {z : String}
    {h t : List Event} {r : Option Error} (hs : BatchSeg env ext fidx z h t r) :
    (∀ name flag perm f e, Event.OpenFile name flag perm f e ∈ t →
      ∃ zf info, [Event.Open z zf none, Event.Stat zf info none,
          Event.OpenFile name flag perm f e] <+: t ∧
        name = TrimSuffix z ext ∧ flag = [OpenFlag.O_CREATE, OpenFlag.O_WRONLY] ∧
        perm = info.mode) ∧
    (∀ zf info, [Event.Open z zf none, Event.Stat zf info none] <+: t →
      ∃ f e, [Event.Open z zf none, Event.Stat zf info none,
        Event.OpenFile (TrimSuffix z ext) [OpenFlag.O_CREATE, OpenFlag.O_WRONLY] info.mode f e]
          <+: t) := by
  cases hs with
  | openErr zf e =>
    refine ⟨by simp, ?_⟩
    intro zf' info hp
    have := hp.length_le
    simp at this
  | statErr zf i e =>
    refine ⟨by simp, ?_⟩
    intro zf' info hp
    have := List.prefix_iff_eq_take.1 hp
    simp at this
  | createErr zf i f e =>
    refine ⟨?_, ?_⟩
    · intro name flag perm f' e' hm
      simp only [List.mem_cons, List.mem_singleton, List.not_mem_nil, or_false, reduceCtorEq,
        false_or, Event.OpenFile.injEq] at hm
      obtain ⟨rfl, rfl, rfl, rfl, rfl⟩ := hm
      exact ⟨zf, i, List.prefix_refl _, rfl, rfl, rfl⟩
    · intro zf' info hp
      have := List.prefix_iff_eq_take.1 hp
      simp only [List.length_cons, List.length_nil, List.take_succ_cons, List.take_zero,
        List.cons.injEq, Event.Open.injEq, Event.Stat.injEq, and_true, true_and] at this
      obtain ⟨⟨rfl, -⟩, -, rfl, -⟩ := this
      exact ⟨f, some e, List.prefix_refl _⟩
  | sizeErr zf i f i2 e =>
    refine ⟨?_, ?_⟩
    · intro name flag perm f' e' hm
      simp only [List.mem_cons, List.mem_singleton, List.not_mem_nil, or_false, reduceCtorEq,
        false_or, Event.OpenFile.injEq] at hm
      obtain ⟨rfl, rfl, rfl, rfl, rfl⟩ := hm
      exact ⟨zf, i, ⟨_, rfl⟩, rfl, rfl, rfl⟩
    · intro zf' info hp
      have := List.prefix_iff_eq_take.1 hp
      simp only [List.length_cons, List.length_nil, List.take_succ_cons, List.take_zero,
        List.cons.injEq, Event.Open.injEq, Event.Stat.injEq, and_true, true_and] at this
      obtain ⟨⟨rfl, -⟩, -, rfl, -⟩ := this
      exact ⟨f, none, ⟨_, rfl⟩⟩
  | decoded zf i f i2 t r hd =>
    refine ⟨?_, ?_⟩
    · intro name flag perm f' e' hm
      simp only [List.cons_append, List.nil_append, List.mem_cons, reduceCtorEq, false_or,
        Event.OpenFile.injEq] at hm
      rcases hm with ⟨rfl, rfl, rfl, rfl, rfl⟩ | hm
      · exact ⟨zf, i, ⟨_, rfl⟩, rfl, rfl, rfl⟩
      · have := DecodeSeg_events hd _ hm
        simp [Event.inDecode] at this
    · intro zf' info hp
      have := List.prefix_iff_eq_take.1 hp
      simp only [List.length_cons, List.length_nil, List.cons_append, List.take_succ_cons,
        List.take_zero, List.cons.injEq, Event.Open.injEq, Event.Stat.injEq, and_true,
        true_and] at this
      obtain ⟨⟨rfl, -⟩, -, rfl, -⟩ := this
      exact ⟨f, none, ⟨_, rfl⟩⟩

theorem BenchSeg_touchesFile {z : String} {t : List Event} {r : Option Error}
    (hs : BenchSeg z t r) : ∀ x ∈ t, x.touchesFile = false := by
  have hin : ∀ l : List Event, (∀ x ∈ l, x.inBench = true ∧ x.stepErr = none) →
      ∀ x ∈ l, x.touchesFile = false := by
    intro l hl x hx
    have := (hl x hx).1
    cases x <;> simp_all [Event.inBench, Event.touchesFile]
  cases hs with
  | openErr zf e => simp [Event.touchesFile]
  | readErr zf data e => simp [Event.touchesFile]
  | loopErr zf data cr pre n e hpre =>
    intro x hx
    simp only [List.mem_append, List.mem_cons, List.mem_singleton, List.not_mem_nil,
      or_false] at hx
    rcases hx with ((rfl | rfl | rfl | rfl) | hx) | rfl
    · rfl
    · rfl
    · rfl
    · rfl
    · exact hin pre hpre x hx
    · rfl
  | done zf data cr t ht =>
    intro x hx
    simp only [List.mem_append, List.mem_cons, List.mem_singleton, List.not_mem_nil,
      or_false] at hx
    rcases hx with ((rfl | rfl | rfl | rfl) | hx) | rfl
    · rfl
    · rfl
    · rfl
    · rfl
    · exact hin t ht x hx
    · rfl

/-- C9: for every string `s`, stripping the suffix from `s ++ lz4Extension`
gives exactly `s`, and whenever the loop body processing the source
`s ++ lz4Extension` requests a destination file, it requests it under the name
`s`. -/
theorem destination_name_strips_suffix (env : Env) (bench : Int) (lz4Extension : String)
    (fidx : Nat) (s : String) (w : World) :
    TrimSuffix (s ++ lz4Extension) lz4Extension = s ∧
    ∃ t, (fileBody env bench lz4Extension fidx (s ++ lz4Extension) w).1.trace = w.trace ++ t ∧
      ∀ name flag perm f e, Event.OpenFile name flag perm f e ∈ t → name = s := by
  refine ⟨TrimSuffix_append s lz4Extension, ?_⟩
  obtain ⟨t, ht, hseg⟩ := fileBody_run env bench lz4Extension fidx (s ++ lz4Extension) w
  refine ⟨t, ht, ?_⟩
  intro name flag perm f e hm
  rcases hseg with ⟨-, hs⟩ | ⟨-, hs⟩
  · have := BenchSeg_touchesFile hs _ hm
    simp [Event.touchesFile] at this
  · obtain ⟨-, -, -, hname, -, -⟩ := (BatchSeg_create hs).1 name flag perm f e hm
    rw [hname, TrimSuffix_append]

/-- The destination request of the loop body in batch mode: the calls `t` of
the body for the source `z` are such that (1) every request for a destination
file comes right after the source was opened and stat'ed, both successfully, as
the first calls of the body, and is made with the flags `O_CREATE|O_WRONLY` and
the mode the stat reported; (2) once the source is opened and stat'ed
successfully, the next call requests the destination with these flags and that
mode. -/
theorem destination_request_from_stat (env : Env) (bench : Int) (lz4Extension : String)
    (fidx : Nat) (z : String) (w : World) (hb : bench ≤ 0) :
    ∃ t, (fileBody env bench lz4Extension fidx z w).1.trace = w.trace ++ t ∧
      (∀ name flag perm f e, Event.OpenFile name flag perm f e ∈ t →
        ∃ zf info, [Event.Open z zf none, Event.Stat zf info none,
            Event.OpenFile name flag perm f e] <+: t ∧
          flag = [OpenFlag.O_CREATE, OpenFlag.O_WRONLY] ∧ perm = info.mode) ∧
      (∀ zf info, [Event.Open z zf none, Event.Stat zf info none] <+: t →
        ∃ f e, [Event.Open z zf none, Event.Stat zf info none,
          Event.OpenFile (TrimSuffix z lz4Extension) [OpenFlag.O_CREATE, OpenFlag.O_WRONLY]
            info.mode f e] <+: t) := by
  obtain ⟨t, ht, hseg⟩ := fileBody_batch env bench lz4Extension fidx z w (by omega)
  refine ⟨t, ht, ?_, (BatchSeg_create hseg).2⟩
  intro name flag perm f e hm
  obtain ⟨zf, info, hp, -, hflag, hperm⟩ := (BatchSeg_create hseg).1 name flag perm f e hm
  exact ⟨zf, info, hp, hflag, hperm⟩

/-- C8: the code at the failing input.  The source `a.lz4` has mode `0666`, the
destination `a` does not exist, the process umask is `022`, batch mode.  The
handler succeeds; the source's stat reports mode `0666`; the destination is
requested with `O_CREATE|O_WRONLY` and mode `0666`, and that request is the only
call of the handler that carries a mode.  The destination it creates then has
mode `0644`, not the source's `0666`. -/
theorem destination_mode_under_umask :
    (Uncompress envMode666 0 ".lz4" ["a.lz4"] World.init).2 = (1, none) ∧
    Event.Stat ⟨1, "a.lz4"⟩ ⟨0o666, 3⟩ none ∈
      (Uncompress envMode666 0 ".lz4" ["a.lz4"] World.init).1.trace ∧
    (Uncompress envMode666 0 ".lz4" ["a.lz4"] World.init).1.trace.filter Event.touchesMode =
      [Event.OpenFile "a" [OpenFlag.O_CREATE, OpenFlag.O_WRONLY] 0o666 ⟨3, "a"⟩ none] ∧
    modesAfter 0o022 modesOnlySource
      (Uncompress envMode666 0 ".lz4" ["a.lz4"] World.init).1.trace "a" = some 0o644 ∧
    modesAfter 0o022 modesOnlySource
      (Uncompress envMode666 0 ".lz4" ["a.lz4"] World.init).1.trace "a" ≠ some 0o666 := by
  decide

/-- C10: in batch mode, for a source name `z` that does not end with the
suffix: the derived destination name is `z` itself; once the source is opened
and stat'ed successfully the next call opens that same path `z` with
`O_CREATE|O_WRONLY`; every destination request of the body is for the path `z`
with exactly these two flags (so without `O_TRUNC`); and an error returned by
the body is the error of the last call made, never a rejection of the name. -/
theorem unsuffixed_source_is_destination (env : Env) (bench : Int) (lz4Extension : String)
    (fidx : Nat) (z : String) (w : World) (hb : bench ≤ 0)
    (hz : HasSuffix z lz4Extension = false) :
    TrimSuffix z lz4Extension = z ∧
    ∃ t, (fileBody env bench lz4Extension fidx z w).1.trace = w.trace ++ t ∧
      (∀ zf info, [Event.Open z zf none, Event.Stat zf info none] <+: t →
        ∃ f e, [Event.Open z zf none, Event.Stat zf info none,
          Event.OpenFile z [OpenFlag.O_CREATE, OpenFlag.O_WRONLY] info.mode f e] <+: t) ∧
      (∀ name flag perm f e, Event.OpenFile name flag perm f e ∈ t →
        name = z ∧ flag = [OpenFlag.O_CREATE, OpenFlag.O_WRONLY] ∧ OpenFlag.O_TRUNC ∉ flag) ∧
      (∀ e, (fileBody env bench lz4Extension fidx z w).2 = some e →
        ∃ pre ev, t = pre ++ [ev] ∧ ev.stepErr = some e) := by
  have htrim := TrimSuffix_of_not_HasSuffix z lz4Extension hz
  refine ⟨htrim, ?_⟩
  obtain ⟨t, ht, hseg⟩ := fileBody_batch env bench lz4Extension fidx z w (by omega)
  refine ⟨t, ht, ?_, ?_, ?_⟩
  · have := (BatchSeg_create hseg).2
    rw [htrim] at this
    exact this
  · intro name flag perm f e hm
    obtain ⟨-, -, -, hname, hflag, -⟩ := (BatchSeg_create hseg).1 name flag perm f e hm
    subst hflag
    exact ⟨hname.trans htrim, rfl, by simp⟩
  · intro e he
    obtain ⟨pre, ev, hpre, hev, -⟩ := (@BatchSeg_outcome bench _ _ _ _ _ _ _ hseg).2 e he
    exact ⟨pre, ev, hpre, hev⟩

/-- Witness for `unsuffixed_source_is_destination`: the source `data.txt`. -/
theorem unsuffixed_source_is_destination_witness :
    TrimSuffix "data.txt" ".lz4" = "data.txt" ∧
    ∃ t, (fileBody envTwoBlocks 0 ".lz4" 0 "data.txt" World.init).1.trace =
        World.init.trace ++ t ∧
      (∀ zf info, [Event.Open "data.txt" zf none, Event.Stat zf info none] <+: t →
        ∃ f e, [Event.Open "data.txt" zf none, Event.Stat zf info none,
          Event.OpenFile "data.txt" [OpenFlag.O_CREATE, OpenFlag.O_WRONLY] info.mode f e]
            <+: t) ∧
      (∀ name flag perm f e, Event.OpenFile name flag perm f e ∈ t →
        name = "data.txt" ∧ flag = [OpenFlag.O_CREATE, OpenFlag.O_WRONLY] ∧
          OpenFlag.O_TRUNC ∉ flag) ∧
      (∀ e, (fileBody envTwoBlocks 0 ".lz4" 0 "data.txt" World.init).2 = some e →
        ∃ pre ev, t = pre ++ [ev] ∧ ev.stepErr = some e) :=
  unsuffixed_source_is_destination envTwoBlocks 0 ".lz4" 0 "data.txt" World.init (by decide)
    (by decide)

/-- C6: let the benchmark count be `bench > 0` and let `buf` be a buffer that
the decoder, whenever bound to it, decodes without error to the same blocks.
Then the benchmark loop that the handler runs on `buf` (with `bench` iterations
to go) returns no error after exactly `bench` iterations (one garbage collection
each); it binds the decoder `bench` times, each time to a reader over `buf`; and
it prints exactly `bench` reports, each with the buffer length, the same decoded
byte count and the percentage `float64(decoded) * 100 / float64(len(buf))` as
first three arguments. -/
theorem benchLoop_reports (env : Env) (bench : Int) (hb : 0 < bench) (buf : List UInt8)
    (blocks : List (List UInt8))
    (hdec : ∀ h, env.decode h (Source.bytes buf) = (blocks, none)) (w : World) :
    ∃ t, (benchLoop env buf bench.toNat w).1.trace = w.trace ++ t ∧
      (benchLoop env buf bench.toNat w).2 = none ∧
      ((t.countP Event.isGC : Nat) : Int) = bench ∧
      t.filterMap Event.resetSrc = List.replicate bench.toNat (Source.bytes buf) ∧
      (((t.filterMap Event.printfArgs).length : Nat) : Int) = bench ∧
      ∀ a ∈ t.filterMap Event.printfArgs, a.take 3 =
        [Val.int buf.length, Val.int (totalLen blocks),
          Val.f64 (F64.div (F64.mul (F64.ofInt (totalLen blocks)) (F64.ofInt 100))
            (F64.ofInt buf.length))] := by
  obtain ⟨t, ht, hres, hgc, hreset, hrep⟩ := benchLoop_counts env buf blocks hdec bench.toNat w
  have hN : ((bench.toNat : Nat) : Int) = bench := Int.toNat_of_nonneg (le_of_lt hb)
  refine ⟨t, ht, hres, by rw [hgc, hN], hreset, ?_, ?_⟩
  · have := congrArg List.length hrep
    simp only [List.length_map, List.length_replicate] at this
    rw [this, hN]
  · intro a ha
    have hmem : a.take 3 ∈ (t.filterMap Event.printfArgs).map (List.take 3) :=
      List.mem_map_of_mem _ ha
    rw [hrep] at hmem
    exact List.eq_of_mem_replicate hmem

/-- Witness for `benchLoop_reports`: three iterations on a 3-byte buffer that
decodes to the blocks `[1, 2]` and `[3]`. -/
theorem benchLoop_reports_witness :
    (∀ h, envTwoBlocks.decode h (Source.bytes [7, 8, 9]) = ([[1, 2], [3]], none)) ∧
    ∃ t, (benchLoop envTwoBlocks [7, 8, 9] (3 : Int).toNat World.init).1.trace =
        World.init.trace ++ t ∧
      (benchLoop envTwoBlocks [7, 8, 9] (3 : Int).toNat World.init).2 = none ∧
      ((t.countP Event.isGC : Nat) : Int) = 3 ∧
      t.filterMap Event.resetSrc = List.replicate (3 : Int).toNat (Source.bytes [7, 8, 9]) ∧
      (((t.filterMap Event.printfArgs).length : Nat) : Int) = 3 ∧
      ∀ a ∈ t.filterMap Event.printfArgs, a.take 3 =
        [Val.int ([7, 8, 9] : List UInt8).length, Val.int (totalLen [[1, 2], [3]]),
          Val.f64 (F64.div (F64.mul (F64.ofInt (totalLen [[1, 2], [3]])) (F64.ofInt 100))
            (F64.ofInt ([7, 8, 9] : List UInt8).length))] :=
  ⟨fun _ => rfl, benchLoop_reports envTwoBlocks 3 (by decide) [7, 8, 9] [[1, 2], [3]]
    (fun _ => rfl) World.init⟩

/-! ## Benchmark mode leaves the filesystem alone -/

theorem LoopRun_touchesFile {env : Env} {bench : Int} {ext : String} {k : Nat}
    {args : List String} {h t : List Event} {r : Option (Nat × Error)} (hb : 0 < bench)
    (hrun : LoopRun env bench ext k args h t r) : ∀ x ∈ t, x.touchesFile = false := by
  induction hrun with
  | finished k h => simp
  | failed k z rest h s e hs =>
    rcases hs with ⟨-, hs⟩ | ⟨hn, -⟩
    · exact BenchSeg_touchesFile hs
    · exact absurd hb hn
  | next k z rest h s t r hs ht ih =>
    rcases hs with ⟨-, hs⟩ | ⟨hn, -⟩
    · intro x hx
      rcases List.mem_append.1 hx with hx | hx
      · exact BenchSeg_touchesFile hs x hx
      · exact ih x hx
    · exact absurd hb hn

/-- C5: with a benchmark count `N > 0`, for every argument list, after creating
the decoder the handler makes calls `t` none of which creates a file, opens one
for writing or writes to one; the files opened (for reading) are, in order, the
arguments up to and including the returned index; with no error returned the
index is `len(args)`; an error returned is the error of the last call made, and
before it no step failed other than a close whose result is not looked at - so
each file whose iterations all succeeded is followed by the next argument. -/
theorem bench_mode_creates_nothing (env : Env) (bench : Int) (ext : String)
    (args : List String) (w0 : World) (hb : 0 < bench) :
    ∃ t, (Uncompress env bench ext args w0).1.trace = w0.trace ++ Event.NewReader :: t ∧
      (∀ x ∈ t, x.touchesFile = false) ∧
      opened t = args.take ((Uncompress env bench ext args w0).2.1 + 1) ∧
      ((Uncompress env bench ext args w0).2.2 = none →
        (Uncompress env bench ext args w0).2.1 = args.length) ∧
      (∀ e, (Uncompress env bench ext args w0).2.2 = some e →
        ∃ pre ev, t = pre ++ [ev] ∧ ev.stepErr = some e ∧
          ∀ x ∈ pre, x.stepErr = none ∨ x.isClose = true) := by
  by_cases hargs : args = []
  · subst hargs
    obtain ⟨ws, ht, hws, -, -⟩ :=
      Copy_stdout_run env (Reset Source.stdin (NewReader w0)) (by simp)
    have hres : (Uncompress env bench ext [] w0).2 =
        (0, (Copy env Writer.stdout (Reset Source.stdin (NewReader w0))).2.2) := by
      simp [Uncompress]
    have htr : (Uncompress env bench ext [] w0).1.trace =
        (Copy env Writer.stdout (Reset Source.stdin (NewReader w0))).1.trace := by
      simp [Uncompress]
    rw [hres, htr, ht]
    refine ⟨[Event.Reset Source.stdin] ++ ws ++
      [Event.Copied Writer.stdout (Copy env Writer.stdout (Reset Source.stdin (NewReader w0))).2.1
        (Copy env Writer.stdout (Reset Source.stdin (NewReader w0))).2.2], by simp, ?_, ?_,
      fun _ => rfl, ?_⟩
    · intro x hx
      simp only [List.mem_append, List.mem_singleton] at hx
      rcases hx with (rfl | hx) | rfl
      · rfl
      · obtain ⟨p, e, rfl⟩ := hws x hx
        rfl
      · rfl
    · rw [opened_append, opened_append]
      have : opened ws = [] := by
        simp only [opened, List.filterMap_eq_nil_iff]
        intro x hx
        obtain ⟨p, e, rfl⟩ := hws x hx
        rfl
      rw [this]
      rfl
    · intro e he
      refine ⟨[Event.Reset Source.stdin] ++ ws, _, rfl, he, ?_⟩
      intro x hx
      simp only [List.mem_append, List.mem_singleton] at hx
      rcases hx with rfl | hx
      · exact Or.inl rfl
      · obtain ⟨p, e, rfl⟩ := hws x hx
        exact Or.inl rfl
  · have hlen : ¬ args.length = 0 := fun h => hargs (List.length_eq_zero.1 h)
    obtain ⟨t, ht, hrun⟩ := filesLoop_run env bench ext 0 args (NewReader w0)
    have hout := LoopRun_outcome hrun
    have htouch := LoopRun_touchesFile hb hrun
    have hclean : ∀ l : List Event, Clean bench l →
        ∀ x ∈ l, x.stepErr = none ∨ x.isClose = true := by
      intro l hl x hx
      rcases hl x hx with h | ⟨-, h⟩
      · exact Or.inl h
      · exact Or.inr h
    unfold Uncompress
    simp only [hlen, if_false]
    rcases hl : filesLoop env bench ext 0 args (NewReader w0) with ⟨w1, r⟩
    rw [hl] at ht hout
    simp only at ht hout
    cases r with
    | none =>
      obtain ⟨-, ho⟩ := hout.1 rfl
      exact ⟨t, by simpa using ht, htouch, by simp [ho], fun _ => rfl, by simp⟩
    | some p =>
      obtain ⟨i, e⟩ := p
      obtain ⟨-, -, ho, pre, ev, hpre, hev, hc⟩ := hout.2 i e rfl
      refine ⟨t, by simpa using ht, htouch, by simpa using ho, by simp, fun e' he' => ?_⟩
      simp only [Option.some.injEq] at he'
      subst he'
      exact ⟨pre, ev, hpre, hev, hclean pre hc⟩

/-- Witness for `bench_mode_creates_nothing`: two files, two iterations each. -/
theorem bench_mode_creates_nothing_witness :
    (Uncompress envTwoBlocks 2 ".lz4" ["a.lz4", "b.lz4"] World.init).2 = (2, none) ∧
    ∃ t, (Uncompress envTwoBlocks 2 ".lz4" ["a.lz4", "b.lz4"] World.init).1.trace =
        World.init.trace ++ Event.NewReader :: t ∧
      (∀ x ∈ t, x.touchesFile = false) ∧
      opened t = ["a.lz4", "b.lz4"].take
        ((Uncompress envTwoBlocks 2 ".lz4" ["a.lz4", "b.lz4"] World.init).2.1 + 1) ∧
      ((Uncompress envTwoBlocks 2 ".lz4" ["a.lz4", "b.lz4"] World.init).2.2 = none →
        (Uncompress envTwoBlocks 2 ".lz4" ["a.lz4", "b.lz4"] World.init).2.1 =
          ["a.lz4", "b.lz4"].length) ∧
      (∀ e, (Uncompress envTwoBlocks 2 ".lz4" ["a.lz4", "b.lz4"] World.init).2.2 = some e →
        ∃ pre ev, t = pre ++ [ev] ∧ ev.stepErr = some e ∧
          ∀ x ∈ pre, x.stepErr = none ∨ x.isClose = true) :=
  ⟨by decide, bench_mode_creates_nothing envTwoBlocks 2 ".lz4" ["a.lz4", "b.lz4"] World.init
    (by decide)⟩

theorem BatchSeg_create_failure {env : Env} {ext : String} {fidx : Nat} {z : String}
    {h t : List Event} {r : Option Error} (hs : BatchSeg env ext fidx z h t r)
    {name : String} {flag : List OpenFlag} {perm : Nat} {f : File} {e : Error}
    (hm : Event.OpenFile name flag perm f (some e) ∈ t) :
    r = some e ∧ ∃ zf info, t = [Event.Open z zf none, Event.Stat zf info none,
      Event.OpenFile name flag perm f (some e)] := by
  cases hs with
  | openErr zf e' => simp at hm
  | statErr zf i e' => simp at hm
  | createErr zf i f' e' =>
    simp only [List.mem_cons, List.mem_singleton, List.not_mem_nil, or_false, reduceCtorEq,
      false_or, Event.OpenFile.injEq, Option.some.injEq] at hm
    obtain ⟨rfl, rfl, rfl, rfl, rfl⟩ := hm
    exact ⟨rfl, zf, i, rfl⟩
  | sizeErr zf i f' i2 e' => simp at hm
  | decoded zf i f' i2 t r hd =>
    simp only [List.cons_append, List.nil_append, List.mem_cons, reduceCtorEq, false_or,
      Event.OpenFile.injEq, and_false] at hm
    have := DecodeSeg_events hd _ hm
    simp [Event.inDecode] at this

theorem LoopRun_create_failure {env : Env} {bench : Int} {ext : String} {k : Nat}
    {args : List String} {h t : List Event} {r : Option (Nat × Error)} (hb : ¬ bench > 0)
    (hrun : LoopRun env bench ext k args h t r)
    {name : String} {flag : List OpenFlag} {perm : Nat} {f : File} {e : Error}
    (hm : Event.OpenFile name flag perm f (some e) ∈ t) :
    ∃ i pre zf info z, r = some (i, e) ∧ k ≤ i ∧ args[i - k]? = some z ∧
      opened pre = args.take (i - k) ∧
      t = pre ++ [Event.Open z zf none, Event.Stat zf info none,
        Event.OpenFile name flag perm f (some e)] := by
  induction hrun with
  | finished k h => simp at hm
  | failed k z rest h s e' hs =>
    rcases hs with ⟨hp, -⟩ | ⟨-, hs⟩
    · exact absurd hp hb
    · obtain ⟨he, zf, info, hs'⟩ := BatchSeg_create_failure hs hm
      simp only [Option.some.injEq] at he
      subst he
      exact ⟨k, [], zf, info, z, rfl, le_refl _, by simp, by simp [opened], by simpa using hs'⟩
  | next k z rest h s t r hs ht ih =>
    rcases hs with ⟨hp, -⟩ | ⟨-, hs⟩
    · exact absurd hp hb
    · rcases List.mem_append.1 hm with hm | hm
      · have := (BatchSeg_create_failure hs hm).1
        simp at this
      · obtain ⟨i, pre, zf, info, z', hr, hk, hz, ho, ht'⟩ := ih hm
        refine ⟨i, s ++ pre, zf, info, z', hr, by omega, ?_, ?_, ?_⟩
        · have : i - k = (i - (k + 1)) + 1 := by omega
          rw [this, List.getElem?_cons_succ]
          exact hz
        · have : i - k = (i - (k + 1)) + 1 := by omega
          rw [opened_append, BatchSeg_opened hs, ho, this, List.take_succ_cons]
          rfl
        · rw [ht', List.append_assoc]

/-- C3, as stated, fails: when the destination cannot be created the handler
returns at once, and the source, which was opened, is never closed. -/
theorem create_failure_leaves_source_open :
    (Uncompress envCreateErr 0 ".lz4" ["a.lz4"] World.init).2 = (0, some "permission denied") ∧
    Event.Open "a.lz4" ⟨1, "a.lz4"⟩ none ∈
      (Uncompress envCreateErr 0 ".lz4" ["a.lz4"] World.init).1.trace ∧
    ∀ x ∈ (Uncompress envCreateErr 0 ".lz4" ["a.lz4"] World.init).1.trace, x.isClose = false := by
  decide

/-- C3, amended: in batch mode, if among the calls `t` of the handler a request
for a destination file fails with `e`, then the handler returns `(i, e)` where
`i` is the position of the file being processed (the files opened before it are
exactly the `i` arguments before it), and the handler's last three calls are the
successful open and stat of that source and the failed request: after opening
the source nothing is written to any sink, no later file is touched, and the
source is not closed. -/
theorem create_failure_aborts (env : Env) (bench : Int) (ext : String) (args : List String)
    (w0 : World) (hb : bench ≤ 0) (hargs : args ≠ []) :
    ∃ t, (Uncompress env bench ext args w0).1.trace = w0.trace ++ Event.NewReader :: t ∧
      ∀ name flag perm f e, Event.OpenFile name flag perm f (some e) ∈ t →
        (Uncompress env bench ext args w0).2.2 = some e ∧
        ∃ pre zf info z, args[(Uncompress env bench ext args w0).2.1]? = some z ∧
          opened pre = args.take (Uncompress env bench ext args w0).2.1 ∧
          t = pre ++ [Event.Open z zf none, Event.Stat zf info none,
            Event.OpenFile name flag perm f (some e)] := by
  have hlen : ¬ args.length = 0 := fun h => hargs (List.length_eq_zero.1 h)
  obtain ⟨t, ht, hrun⟩ := filesLoop_run env bench ext 0 args (NewReader w0)
  refine ⟨t, ?_, ?_⟩
  · unfold Uncompress
    simp only [hlen, if_false]
    rcases hl : filesLoop env bench ext 0 args (NewReader w0) with ⟨w1, r⟩
    rw [hl] at ht
    cases r with
    | none => simpa using ht
    | some p => simpa using ht
  · intro name flag perm f e hm
    obtain ⟨i, pre, zf, info, z, hr, -, hz, ho, ht'⟩ :=
      LoopRun_create_failure (by omega) hrun hm
    have hres : (Uncompress env bench ext args w0).2 = (i, some e) := by
      unfold Uncompress
      simp only [hlen, if_false]
      rcases hl : filesLoop env bench ext 0 args (NewReader w0) with ⟨w1, r⟩
      rw [hl] at hr
      simp only at hr
      subst hr
      rfl
    rw [hres]
    exact ⟨rfl, pre, zf, info, z, by simpa using hz, by simpa using ho, ht'⟩

/-- Witness for `create_failure_aborts`: one file, whose destination cannot be
created. -/
theorem create_failure_aborts_witness :
    (0 : Int) ≤ 0 ∧ ["a.lz4"] ≠ [] ∧
    ∃ t, (Uncompress envCreateErr 0 ".lz4" ["a.lz4"] World.init).1.trace =
        World.init.trace ++ Event.NewReader :: t ∧
      ∀ name flag perm f e, Event.OpenFile name flag perm f (some e) ∈ t →
        (Uncompress envCreateErr 0 ".lz4" ["a.lz4"] World.init).2.2 = some e ∧
        ∃ pre zf info z,
          ["a.lz4"][(Uncompress envCreateErr 0 ".lz4" ["a.lz4"] World.init).2.1]? = some z ∧
          opened pre =
            ["a.lz4"].take (Uncompress envCreateErr 0 ".lz4" ["a.lz4"] World.init).2.1 ∧
          t = pre ++ [Event.Open z zf none, Event.Stat zf info none,
            Event.OpenFile name flag perm f (some e)] :=
  ⟨by decide, by decide,
    create_failure_aborts envCreateErr 0 ".lz4" ["a.lz4"] World.init (by decide) (by decide)⟩

/-! ## Closing the descriptors -/

theorem Closing_closes {zf f : File} {summary : List Event} {cerr : Option Error}
    {tail : List Event} {r : Option Error} (hs : ∀ x ∈ summary, x.isClose = false)
    (h : Closing zf f summary cerr tail r) :
    (cerr = none → ∃ r1, Event.Close zf r1 ∈ tail ∧ (r1 = none → ∃ r2, Event.Close f r2 ∈ tail)) ∧
    (∀ e, cerr = some e → r = some e ∧ tail = []) ∧
    (∀ c e, Event.Close c (some e) ∈ tail → r = some e) := by
  have hsum : ∀ c e, Event.Close c e ∉ summary := by
    intro c e hm
    have := hs _ hm
    simp [Event.isClose] at this
  cases h with
  | copyErr e => simp
  | srcErr e =>
    refine ⟨fun _ => ⟨some e, by simp, by simp⟩, by simp, ?_⟩
    intro c e' hm
    simp only [List.mem_singleton, Event.Close.injEq, Option.some.injEq] at hm
    rw [hm.2]
  | dstErr e =>
    refine ⟨fun _ => ⟨none, by simp, fun _ => ⟨some e, by simp⟩⟩, by simp, ?_⟩
    intro c e' hm
    simp only [List.mem_cons, List.mem_singleton, Event.Close.injEq, reduceCtorEq, and_false,
      false_or, Option.some.injEq, List.not_mem_nil, or_false] at hm
    rw [hm.2]
  | done =>
    refine ⟨fun _ => ⟨none, by simp, fun _ => ⟨none, by simp⟩⟩, by simp, ?_⟩
    intro c e' hm
    simp only [List.cons_append, List.nil_append, List.mem_cons, Event.Close.injEq,
      reduceCtorEq, and_false, false_or] at hm
    exact absurd hm (hsum c (some e'))

theorem Closing_tail {zf f : File} {summary : List Event} {cerr : Option Error}
    {tail : List Event} {r : Option Error} (h : Closing zf f summary cerr tail r) :
    ∀ x ∈ tail, (∃ c e, x = Event.Close c e) ∨ x ∈ summary := by
  cases h with
  | copyErr e => simp
  | srcErr e => simp
  | dstErr e => simp
  | done =>
    intro x hx
    simp only [List.cons_append, List.nil_append, List.mem_cons] at hx
    rcases hx with rfl | rfl | hx
    · exact Or.inl ⟨_, _, rfl⟩
    · exact Or.inl ⟨_, _, rfl⟩
    · exact Or.inr hx

theorem DecodeSeg_shape {env : Env} {fidx : Nat} {zname fname : String}
    {zf f : File} {zsize : Int} {h : List Event} {src : Source} {t : List Event}
    {r : Option Error} (hd : DecodeSeg env fidx zname fname zf f zsize h src t r) :
    ∃ pre dst0 n0 cerr tail summary,
      t = pre ++ [Event.Copied dst0 n0 cerr] ++ tail ∧
      (∀ x ∈ pre, x.quiet = true) ∧ (∀ x ∈ summary, x.quiet = true) ∧
      Closing zf f summary cerr tail r := by
  have hq : ∀ ws : List Event, (∀ x ∈ ws, x.inCopy = true) → ∀ x ∈ ws, x.quiet = true := by
    intro ws hws x hx
    have := hws x hx
    cases x <;> simp_all [Event.inCopy, Event.quiet]
  cases hd with
  | plain hz ws n cerr tail r hws hcopy hcl =>
    exact ⟨ws, Writer.file f, n, cerr, tail, [], rfl, hq ws hws, by simp, hcl⟩
  | instrumented hz ws n cerr tail r sz hws hcopy hcl =>
    refine ⟨[Event.NewBar ⟨zsize, true, fname, true⟩, Event.Apply fidx] ++ ws, _, n, cerr,
      tail, _, rfl, ?_, ?_, hcl⟩
    · intro x hx
      simp only [List.cons_append, List.nil_append, List.mem_cons] at hx
      rcases hx with rfl | rfl | hx
      · rfl
      · rfl
      · exact hq ws hws x hx
    · simp [Event.quiet]

theorem quiet_isClose (x : Event) (h : x.quiet = true) : x.isClose = false := by
  cases x <;> simp_all [Event.quiet, Event.isClose]

theorem BatchSeg_closes {env : Env} {ext : String} {fidx : Nat} {z : String}
    {h t : List Event} {r : Option Error} (hs : BatchSeg env ext fidx z h t r) :
    (∀ zf f name flag perm dst n, Event.Open z zf none ∈ t →
      Event.OpenFile name flag perm f none ∈ t → Event.Copied dst n none ∈ t →
      ∃ r1, Event.Close zf r1 ∈ t ∧ (r1 = none → ∃ r2, Event.Close f r2 ∈ t)) ∧
    (∀ c e, Event.Close c (some e) ∈ t → r = some e) ∧
    (∀ dst n e, Event.Copied dst n (some e) ∈ t → r = some e ∧ ∀ x ∈ t, x.isClose = false) := by
  cases hs with
  | openErr zf e => simp
  | statErr zf i e => simp
  | createErr zf i f e => simp
  | sizeErr zf i f i2 e => simp
  | decoded zf i f i2 t r hd =>
    obtain ⟨pre, dst0, n0, cerr, tail, summary, rfl, hpre, hsum, hcl⟩ := DecodeSeg_shape hd
    have hsumc : ∀ x ∈ summary, x.isClose = false := fun x hx => quiet_isClose x (hsum x hx)
    obtain ⟨hc1, hc2, hc3⟩ := Closing_closes hsumc hcl
    have htail := Closing_tail hcl
    have hnoOpen : ∀ a b c, Event.Open a b c ∉ pre ∧ Event.Open a b c ∉ tail := by
      intro a b c
      refine ⟨fun hm => ?_, fun hm => ?_⟩
      · have := hpre _ hm
        simp [Event.quiet] at this
      · rcases htail _ hm with ⟨_, _, h⟩ | h
        · simp at h
        · have := hsum _ h
          simp [Event.quiet] at this
    have hnoCreate : ∀ a b c d e, Event.OpenFile a b c d e ∉ pre ∧
        Event.OpenFile a b c d e ∉ tail := by
      intro a b c d e
      refine ⟨fun hm => ?_, fun hm => ?_⟩
      · have := hpre _ hm
        simp [Event.quiet] at this
      · rcases htail _ hm with ⟨_, _, h⟩ | h
        · simp at h
        · have := hsum _ h
          simp [Event.quiet] at this
    have hnoCopied : ∀ a b c, Event.Copied a b c ∉ pre ∧ Event.Copied a b c ∉ tail := by
      intro a b c
      refine ⟨fun hm => ?_, fun hm => ?_⟩
      · have := hpre _ hm
        simp [Event.quiet] at this
      · rcases htail _ hm with ⟨_, _, h⟩ | h
        · simp at h
        · have := hsum _ h
          simp [Event.quiet] at this
    have hnoClose : ∀ a b, Event.Close a b ∉ pre := by
      intro a b hm
      have := hpre _ hm
      simp [Event.quiet] at this
    have hmem : ∀ x, x ∈ [Event.Open z zf none, Event.Stat zf i none,
        Event.OpenFile (TrimSuffix z ext) [OpenFlag.O_CREATE, OpenFlag.O_WRONLY] i.mode f none,
        Event.Reset (Source.file zf), Event.Stat zf i2 none] ++
        (pre ++ [Event.Copied dst0 n0 cerr] ++ tail) →
        x ∈ [Event.Open z zf none, Event.Stat zf i none,
          Event.OpenFile (TrimSuffix z ext) [OpenFlag.O_CREATE, OpenFlag.O_WRONLY] i.mode f none,
          Event.Reset (Source.file zf), Event.Stat zf i2 none] ∨
        x ∈ pre ∨ x = Event.Copied dst0 n0 cerr ∨ x ∈ tail := by
      intro x hx
      simp only [List.mem_append, List.mem_singleton] at hx
      tauto
    have hintail : ∀ x, x ∈ tail → x ∈ [Event.Open z zf none, Event.Stat zf i none,
        Event.OpenFile (TrimSuffix z ext) [OpenFlag.O_CREATE, OpenFlag.O_WRONLY] i.mode f none,
        Event.Reset (Source.file zf), Event.Stat zf i2 none] ++
        (pre ++ [Event.Copied dst0 n0 cerr] ++ tail) := by
      intro x hx
      simp only [List.mem_append]
      exact Or.inr (Or.inr hx)
    refine ⟨?_, ?_, ?_⟩
    · intro zf' f' name flag perm dst n ho hc hcp
      have hzf : zf' = zf := by
        rcases hmem _ ho with h | h | h | h
        · simpa using h
        · exact absurd h (hnoOpen _ _ _).1
        · simp at h
        · exact absurd h (hnoOpen _ _ _).2
      have hf : f' = f := by
        rcases hmem _ hc with h | h | h | h
        · simp at h
          exact h.2.2.2
        · exact absurd h (hnoCreate _ _ _ _ _).1
        · simp at h
        · exact absurd h (hnoCreate _ _ _ _ _).2
      have hce : cerr = none := by
        rcases hmem _ hcp with h | h | h | h
        · simp at h
        · exact absurd h (hnoCopied _ _ _).1
        · simp at h
          exact h.2.2.symm
        · exact absurd h (hnoCopied _ _ _).2
      subst hzf hf
      obtain ⟨r1, hr1, hr2⟩ := hc1 hce
      refine ⟨r1, hintail _ hr1, fun h1 => ?_⟩
      obtain ⟨r2, hr2'⟩ := hr2 h1
      exact ⟨r2, hintail _ hr2'⟩
    · intro c e hm
      rcases hmem _ hm with h | h | h | h
      · simp at h
      · exact absurd h (hnoClose _ _)
      · simp at h
      · exact hc3 c e h
    · intro dst n e hm
      have hce : cerr = some e := by
        rcases hmem _ hm with h | h | h | h
        · simp at h
        · exact absurd h (hnoCopied _ _ _).1
        · simp at h
          exact h.2.2.symm
        · exact absurd h (hnoCopied _ _ _).2
      obtain ⟨hr, ht⟩ := hc2 e hce
      refine ⟨hr, ?_⟩
      intro x hx
      rcases hmem _ hx with h | h | h | h
      · simp only [List.mem_cons, List.mem_singleton, List.not_mem_nil, or_false] at h
        rcases h with rfl | rfl | rfl | rfl | rfl <;> rfl
      · exact quiet_isClose x (hpre x h)
      · subst h
        rfl
      · rw [ht] at h
        simp at h

/-- C2, as stated, fails: when decoding returns an error the handler returns at
once.  Here the source and the destination of `b.lz4` were both opened, the
decoder fails, and no `Close` is ever called. -/
theorem decode_error_leaves_files_open :
    (Uncompress envCorruptSecond 0 ".lz4" ["b.lz4"] World.init).2 =
      (0, some "lz4: invalid frame") ∧
    Event.Open "b.lz4" ⟨1, "b.lz4"⟩ none ∈
      (Uncompress envCorruptSecond 0 ".lz4" ["b.lz4"] World.init).1.trace ∧
    Event.OpenFile "b" [OpenFlag.O_CREATE, OpenFlag.O_WRONLY] 420 ⟨3, "b"⟩ none ∈
      (Uncompress envCorruptSecond 0 ".lz4" ["b.lz4"] World.init).1.trace ∧
    ∀ x ∈ (Uncompress envCorruptSecond 0 ".lz4" ["b.lz4"] World.init).1.trace,
      x.isClose = false := by
  decide

/-- C2, amended: in batch mode, among the calls `t` of the loop body for the
file `z` at index `fidx`: (1) if the source and the destination were both opened
and the copy returned without error, `Close` is called on the source and, when
that close succeeds, on the destination; (2) if a `Close` fails with `e`, the
body returns `e`, so that the loop returns `(fidx, e)`; (3) if the copy returns
an error `e`, the body returns `e` and calls no `Close` at all. -/
theorem closes_follow_successful_decode (env : Env) (bench : Int) (ext : String) (fidx : Nat)
    (z : String) (w : World) (hb : bench ≤ 0) :
    ∃ t, (fileBody env bench ext fidx z w).1.trace = w.trace ++ t ∧
      (∀ zf f name flag perm dst n, Event.Open z zf none ∈ t →
        Event.OpenFile name flag perm f none ∈ t → Event.Copied dst n none ∈ t →
        ∃ r1, Event.Close zf r1 ∈ t ∧ (r1 = none → ∃ r2, Event.Close f r2 ∈ t)) ∧
      (∀ c e, Event.Close c (some e) ∈ t →
        (fileBody env bench ext fidx z w).2 = some e ∧
        ∀ rest, (filesLoop env bench ext fidx (z :: rest) w).2 = some (fidx, e)) ∧
      (∀ dst n e, Event.Copied dst n (some e) ∈ t →
        (fileBody env bench ext fidx z w).2 = some e ∧ ∀ x ∈ t, x.isClose = false) := by
  obtain ⟨t, ht, hseg⟩ := fileBody_batch env bench ext fidx z w (by omega)
  obtain ⟨h1, h2, h3⟩ := BatchSeg_closes hseg
  refine ⟨t, ht, h1, ?_, h3⟩
  intro c e hm
  have hr := h2 c e hm
  refine ⟨hr, fun rest => ?_⟩
  rw [filesLoop]
  rcases hbody : fileBody env bench ext fidx z w with ⟨w1, r⟩
  rw [hbody] at hr
  simp only at hr
  subst hr
  rfl

/-- Witness for `closes_follow_successful_decode`. -/
theorem closes_follow_successful_decode_witness :
    ∃ t, (fileBody envCloseErr 0 ".lz4" 0 "a.lz4" World.init).1.trace = World.init.trace ++ t ∧
      (∀ zf f name flag perm dst n, Event.Open "a.lz4" zf none ∈ t →
        Event.OpenFile name flag perm f none ∈ t → Event.Copied dst n none ∈ t →
        ∃ r1, Event.Close zf r1 ∈ t ∧ (r1 = none → ∃ r2, Event.Close f r2 ∈ t)) ∧
      (∀ c e, Event.Close c (some e) ∈ t →
        (fileBody envCloseErr 0 ".lz4" 0 "a.lz4" World.init).2 = some e ∧
        ∀ rest, (filesLoop envCloseErr 0 ".lz4" 0 ("a.lz4" :: rest) World.init).2 =
          some (0, e)) ∧
      (∀ dst n e, Event.Copied dst n (some e) ∈ t →
        (fileBody envCloseErr 0 ".lz4" 0 "a.lz4" World.init).2 = some e ∧
        ∀ x ∈ t, x.isClose = false) :=
  closes_follow_successful_decode envCloseErr 0 ".lz4" 0 "a.lz4" World.init (by decide)

/-! ## Progress instrumentation -/

theorem Closing_done {zf f : File} {summary : List Event} {cerr : Option Error}
    {tail : List Event} (h : Closing zf f summary cerr tail none) :
    cerr = none ∧ tail = [Event.Close zf none, Event.Close f none] ++ summary := by
  cases h with
  | done => exact ⟨rfl, rfl⟩

theorem Closing_written {zf f : File} {summary : List Event} {cerr : Option Error}
    {tail : List Event} {r : Option Error} (tgt : Writer)
    (hs : ∀ x ∈ summary, x.inCopy = false)
    (h : Closing zf f summary cerr tail r) :
    written tgt tail = [] ∧ (∀ x ∈ tail, x.inCopy = false) := by
  have hall : ∀ x ∈ tail, x.inCopy = false := by
    intro x hx
    rcases Closing_tail h x hx with ⟨c, e, rfl⟩ | hx
    · rfl
    · exact hs x hx
  refine ⟨written_inert tgt tail ?_, hall⟩
  intro x hx
  have := hall x hx
  cases x <;> simp_all [Event.inCopy, Event.payloadTo]

theorem DecodeSeg_plain {env : Env} {fidx : Nat} {zname fname : String}
    {zf f : File} {zsize : Int} {h : List Event} {src : Source} {t : List Event}
    {r : Option Error} (hd : DecodeSeg env fidx zname fname zf f zsize h src t r)
    (hz : ¬ 0 < zsize) :
    (∀ x ∈ t, x.inCopy = true ∨ (∃ n e, x = Event.Copied (Writer.file f) n e) ∨
      x.isClose = true) ∧
    (∃ n e, Event.Copied (Writer.file f) n e ∈ t) ∧
    ((∀ h' b p, env.write h' (Writer.bar b) p = none) →
      written (Writer.file f) t <+: (env.decode h src).1 ∧
      ((∀ q e, Event.Write (Writer.file f) q (some e) ∉ t) →
        written (Writer.file f) t = (env.decode h src).1)) := by
  cases hd with
  | instrumented hz' ws n cerr tail r sz hws hcopy hcl => exact absurd hz' hz
  | plain hz' ws n cerr tail r hws hcopy hcl =>
    obtain ⟨hwt, -⟩ := Closing_written (Writer.file f) (by simp) hcl
    refine ⟨?_, ⟨n, cerr, by simp⟩, ?_⟩
    · intro x hx
      simp only [List.mem_append, List.mem_singleton] at hx
      rcases hx with (hx | rfl) | hx
      · exact Or.inl (hws x hx)
      · exact Or.inr (Or.inl ⟨n, cerr, rfl⟩)
      · rcases Closing_tail hcl x hx with ⟨c, e, rfl⟩ | hx
        · exact Or.inr (Or.inr rfl)
        · simp at hx
    · intro hbar
      obtain ⟨hpre, hall, -⟩ := hcopy hbar
      have hw : written (Writer.file f) (ws ++ [Event.Copied (Writer.file f) n cerr] ++ tail) =
          written (Writer.file f) ws := by
        rw [written_append, written_append, hwt]
        simp [written, Event.payloadTo]
      rw [hw]
      refine ⟨hpre, fun hno => (hall ?_).1⟩
      intro q e hm
      exact hno q e (by simp [hm])

theorem DecodeSeg_instrumented {env : Env} {fidx : Nat} {zname fname : String}
    {zf f : File} {zsize : Int} {h : List Event} {src : Source} {t : List Event}
    {r : Option Error} (hd : DecodeSeg env fidx zname fname zf f zsize h src t r)
    (hz : 0 < zsize) :
    (∃ b, Event.NewBar b ∈ t) ∧ (∃ k, Event.Apply k ∈ t) ∧
    (r = none → ∃ a, Event.Printf "%s %d\n" a ∈ t) ∧
    (∀ e, r = some e → ∀ fmt a, Event.Printf fmt a ∉ t) ∧
    ((∀ h' b p, env.write h' (Writer.bar b) p = none) →
      written (Writer.file f) t <+:
        (env.decode (h ++ [Event.NewBar ⟨zsize, true, fname, true⟩, Event.Apply fidx]) src).1 ∧
      ((∀ q e, Event.Write (Writer.file f) q (some e) ∉ t) →
        written (Writer.file f) t =
          (env.decode (h ++ [Event.NewBar ⟨zsize, true, fname, true⟩, Event.Apply fidx])
            src).1)) := by
  cases hd with
  | plain hz' ws n cerr tail r hws hcopy hcl => exact absurd hz hz'
  | instrumented hz' ws n cerr tail r sz hws hcopy hcl =>
    obtain ⟨hwt, -⟩ := Closing_written (Writer.file f) (by simp [Event.inCopy]) hcl
    refine ⟨⟨⟨zsize, true, fname, true⟩, by simp⟩, ⟨fidx, by simp⟩, ?_, ?_, ?_⟩
    · intro hr
      subst hr
      obtain ⟨-, rfl⟩ := Closing_done hcl
      exact ⟨[Val.str zname, Val.int sz], by simp⟩
    · intro e he fmt a hm
      subst he
      simp only [List.mem_append] at hm
      rcases hm with ((hm | hm) | hm) | hm
      · simp at hm
      · have := hws _ hm
        simp [Event.inCopy] at this
      · simp at hm
      · cases hcl with
        | copyErr e => simp at hm
        | srcErr e => simp at hm
        | dstErr e => simp at hm
    · intro hbar
      obtain ⟨hpre, hall, -⟩ := hcopy hbar
      have hw : written (Writer.file f)
          ([Event.NewBar ⟨zsize, true, fname, true⟩, Event.Apply fidx] ++ ws ++
            [Event.Copied (Writer.multi (Writer.file f) (Writer.bar ⟨zsize, true, fname, true⟩))
              n cerr] ++ tail) = written (Writer.file f) ws := by
        rw [written_append, written_append, written_append, hwt]
        simp [written, Event.payloadTo]
      rw [hw]
      refine ⟨hpre, fun hno => (hall ?_).1⟩
      intro q e hm
      exact hno q e (by simp [hm])

/-- C7, as stated, fails in two places.  (1) With a source of size 3 whose
decoding fails, the indicator is constructed and the observer registered, but
no summary line is printed.  (2) With a destination whose writes fail (and an
indicator that never fails), the decoder's output is the block `[1, 2]` but
nothing is written to the destination. -/
theorem summary_needs_success :
    (Event.Stat ⟨1, "b.lz4"⟩ ⟨420, 3⟩ none ∈
        (Uncompress envCorruptSecond 0 ".lz4" ["b.lz4"] World.init).1.trace ∧
      Event.NewBar ⟨3, true, "b", true⟩ ∈
        (Uncompress envCorruptSecond 0 ".lz4" ["b.lz4"] World.init).1.trace ∧
      Event.Apply 0 ∈ (Uncompress envCorruptSecond 0 ".lz4" ["b.lz4"] World.init).1.trace ∧
      ∀ x ∈ (Uncompress envCorruptSecond 0 ".lz4" ["b.lz4"] World.init).1.trace,
        x.printfArgs = none) ∧
    ((∀ h src, (envWriteErr.decode h src).1 = [[1, 2]]) ∧
      (∀ h b p, envWriteErr.write h (Writer.bar b) p = none) ∧
      written (Writer.file ⟨3, "a"⟩)
        (Uncompress envWriteErr 0 ".lz4" ["a.lz4"] World.init).1.trace = []) :=
  ⟨by decide, fun _ _ => rfl, fun _ _ _ => rfl, by decide⟩

/-- C7, amended: in batch mode, let the loop body for the source `z` have
opened and stat'ed the source, created the destination `f`, bound the decoder
and stat'ed the source again, getting the size `i2.size`, and let `rest` be the
calls it makes after that.  Then, whatever the indicator's write does: an
indicator is constructed iff `i2.size > 0`; an observer is registered iff
`i2.size > 0`; when the body ends without error, the summary line is printed iff
`i2.size > 0`, and when it ends with an error nothing is printed; when the size
is not positive the copy's sink is the destination file itself.  And, assuming
the indicator's write never fails: in both cases the blocks written to the
destination are a prefix of the decoder's output, and the whole of it unless a
write to the destination fails. -/
theorem instrumentation_iff_positive_size (env : Env) (bench : Int) (ext : String)
    (fidx : Nat) (z : String) (w : World) (hb : bench ≤ 0)
    (zf : File) (i : FileInfo) (name : String) (flag : List OpenFlag) (perm : Nat) (f : File)
    (i2 : FileInfo) (rest : List Event)
    (ht : (fileBody env bench ext fidx z w).1.trace = w.trace ++
      [Event.Open z zf none, Event.Stat zf i none, Event.OpenFile name flag perm f none,
        Event.Reset (Source.file zf), Event.Stat zf i2 none] ++ rest) :
    ((∃ b, Event.NewBar b ∈ rest) ↔ 0 < i2.size) ∧
    ((∃ k, Event.Apply k ∈ rest) ↔ 0 < i2.size) ∧
    ((fileBody env bench ext fidx z w).2 = none →
      ((∃ a, Event.Printf "%s %d\n" a ∈ rest) ↔ 0 < i2.size)) ∧
    (∀ e, (fileBody env bench ext fidx z w).2 = some e → ∀ fmt a, Event.Printf fmt a ∉ rest) ∧
    (¬ 0 < i2.size → (∃ n e, Event.Copied (Writer.file f) n e ∈ rest) ∧
      ∀ dst n e, Event.Copied dst n e ∈ rest → dst = Writer.file f) ∧
    ((∀ h b p, env.write h (Writer.bar b) p = none) →
      written (Writer.file f) rest <+:
        (env.decode (w.trace ++
          [Event.Open z zf none, Event.Stat zf i none, Event.OpenFile name flag perm f none,
            Event.Reset (Source.file zf), Event.Stat zf i2 none] ++
          (if 0 < i2.size then [Event.NewBar ⟨i2.size, true, name, true⟩, Event.Apply fidx]
            else [])) (Source.file zf)).1 ∧
      ((∀ q e, Event.Write (Writer.file f) q (some e) ∉ rest) →
        written (Writer.file f) rest =
          (env.decode (w.trace ++
            [Event.Open z zf none, Event.Stat zf i none, Event.OpenFile name flag perm f none,
              Event.Reset (Source.file zf), Event.Stat zf i2 none] ++
            (if 0 < i2.size then [Event.NewBar ⟨i2.size, true, name, true⟩, Event.Apply fidx]
              else [])) (Source.file zf)).1)) := by
  obtain ⟨t, ht', hseg⟩ := fileBody_batch env bench ext fidx z w (by omega)
  have heq : t = [Event.Open z zf none, Event.Stat zf i none,
      Event.OpenFile name flag perm f none, Event.Reset (Source.file zf),
      Event.Stat zf i2 none] ++ rest := by
    rw [ht, List.append_assoc] at ht'
    exact (List.append_cancel_left ht').symm
  generalize (fileBody env bench ext fidx z w).2 = r at hseg ⊢
  cases hseg with
  | openErr zf' e => simp at heq
  | statErr zf' i' e => simp at heq
  | createErr zf' i' f' e => simp at heq
  | sizeErr zf' i' f' i2' e => simp at heq
  | decoded zf' i' f' i2' t' r hd =>
    simp only [List.cons_append, List.nil_append, List.cons.injEq, Event.Open.injEq,
      Event.Stat.injEq, Event.OpenFile.injEq, Event.Reset.injEq, Source.file.injEq, and_true,
      true_and] at heq
    obtain ⟨rfl, ⟨-, rfl⟩, ⟨rfl, rfl, rfl, rfl⟩, -, ⟨-, rfl⟩, rfl⟩ := heq
    by_cases hz : 0 < i2'.size
    · obtain ⟨hbarE, happ, hsum, hnos, hw⟩ := DecodeSeg_instrumented hd hz
      simp only [hz, if_true, iff_true, not_true_eq_false, false_implies, true_and]
      refine ⟨hbarE, happ, hsum, hnos, fun hbar => ?_⟩
      obtain ⟨hw1, hw2⟩ := hw hbar
      exact ⟨by simpa using hw1, by simpa using hw2⟩
    · obtain ⟨hall, hcop, hw⟩ := DecodeSeg_plain hd hz
      simp only [hz, if_false, iff_false, List.append_nil, not_false_eq_true, true_implies,
        not_exists]
      refine ⟨?_, ?_, ?_, ?_, ⟨hcop, ?_⟩, fun hbar => hw hbar⟩
      · intro b hm
        rcases hall _ hm with h | ⟨_, _, h⟩ | h <;> simp [Event.inCopy, Event.isClose] at h
      · intro k hm
        rcases hall _ hm with h | ⟨_, _, h⟩ | h <;> simp [Event.inCopy, Event.isClose] at h
      · intro _ a hm
        rcases hall _ hm with h | ⟨_, _, h⟩ | h <;> simp [Event.inCopy, Event.isClose] at h
      · intro e _ fmt a hm
        rcases hall _ hm with h | ⟨_, _, h⟩ | h <;> simp [Event.inCopy, Event.isClose] at h
      · intro dst n e hm
        rcases hall _ hm with h | ⟨_, _, h⟩ | h
        · simp [Event.inCopy] at h
        · simp only [Event.Copied.injEq] at h
          exact h.1
        · simp [Event.isClose] at h

/-- Witness for `instrumentation_iff_positive_size`: a source of size 3 that
decodes to two blocks, with an indicator whose write never fails. -/
theorem instrumentation_iff_positive_size_witness :
    ((0 : Int) ≤ 0 ∧
      (fileBody envTwoBlocks 0 ".lz4" 0 "a.lz4" World.init).1.trace = World.init.trace ++
        [Event.Open "a.lz4" ⟨0, "a.lz4"⟩ none, Event.Stat ⟨0, "a.lz4"⟩ ⟨420, 3⟩ none,
          Event.OpenFile "a" [OpenFlag.O_CREATE, OpenFlag.O_WRONLY] 420 ⟨2, "a"⟩ none,
          Event.Reset (Source.file ⟨0, "a.lz4"⟩), Event.Stat ⟨0, "a.lz4"⟩ ⟨420, 3⟩ none] ++
        restTwoBlocks ∧
      ∀ h b p, envTwoBlocks.write h (Writer.bar b) p = none) ∧
    ((∃ b, Event.NewBar b ∈ restTwoBlocks) ↔ 0 < (⟨420, 3⟩ : FileInfo).size) ∧
    ((∃ k, Event.Apply k ∈ restTwoBlocks) ↔ 0 < (⟨420, 3⟩ : FileInfo).size) ∧
    ((fileBody envTwoBlocks 0 ".lz4" 0 "a.lz4" World.init).2 = none →
      ((∃ a, Event.Printf "%s %d\n" a ∈ restTwoBlocks) ↔ 0 < (⟨420, 3⟩ : FileInfo).size)) ∧
    (∀ e, (fileBody envTwoBlocks 0 ".lz4" 0 "a.lz4" World.init).2 = some e →
      ∀ fmt a, Event.Printf fmt a ∉ restTwoBlocks) ∧
    (¬ 0 < (⟨420, 3⟩ : FileInfo).size →
      (∃ n e, Event.Copied (Writer.file ⟨2, "a"⟩) n e ∈ restTwoBlocks) ∧
      ∀ dst n e, Event.Copied dst n e ∈ restTwoBlocks → dst = Writer.file ⟨2, "a"⟩) ∧
    ((∀ h b p, envTwoBlocks.write h (Writer.bar b) p = none) →
      written (Writer.file ⟨2, "a"⟩) restTwoBlocks <+:
        (envTwoBlocks.decode (World.init.trace ++
          [Event.Open "a.lz4" ⟨0, "a.lz4"⟩ none, Event.Stat ⟨0, "a.lz4"⟩ ⟨420, 3⟩ none,
            Event.OpenFile "a" [OpenFlag.O_CREATE, OpenFlag.O_WRONLY] 420 ⟨2, "a"⟩ none,
            Event.Reset (Source.file ⟨0, "a.lz4"⟩), Event.Stat ⟨0, "a.lz4"⟩ ⟨420, 3⟩ none] ++
          (if 0 < (⟨420, 3⟩ : FileInfo).size then
            [Event.NewBar ⟨(⟨420, 3⟩ : FileInfo).size, true, "a", true⟩, Event.Apply 0]
            else [])) (Source.file ⟨0, "a.lz4"⟩)).1 ∧
      ((∀ q e, Event.Write (Writer.file ⟨2, "a"⟩) q (some e) ∉ restTwoBlocks) →
        written (Writer.file ⟨2, "a"⟩) restTwoBlocks =
          (envTwoBlocks.decode (World.init.trace ++
            [Event.Open "a.lz4" ⟨0, "a.lz4"⟩ none, Event.Stat ⟨0, "a.lz4"⟩ ⟨420, 3⟩ none,
              Event.OpenFile "a" [OpenFlag.O_CREATE, OpenFlag.O_WRONLY] 420 ⟨2, "a"⟩ none,
              Event.Reset (Source.file ⟨0, "a.lz4"⟩), Event.Stat ⟨0, "a.lz4"⟩ ⟨420, 3⟩ none] ++
            (if 0 < (⟨420, 3⟩ : FileInfo).size then
              [Event.NewBar ⟨(⟨420, 3⟩ : FileInfo).size, true, "a", true⟩, Event.Apply 0]
              else [])) (Source.file ⟨0, "a.lz4"⟩)).1)) :=
  ⟨⟨by decide, by decide, fun _ _ _ => rfl⟩,
    instrumentation_iff_positive_size envTwoBlocks 0 ".lz4" 0 "a.lz4" World.init (by decide)
      ⟨0, "a.lz4"⟩ ⟨420, 3⟩ "a" [OpenFlag.O_CREATE, OpenFlag.O_WRONLY] 420
      ⟨2, "a"⟩ ⟨420, 3⟩ restTwoBlocks (by decide)⟩

end Lz4c
